import Mathlib

/-!
Verification development for the dependency-graph resolution engine of a
build system.  The definitions below are a shallow embedding of the Python
sources:

* `app/core/domain/entities.py`   — `Task`, `Build`, `SortedTaskList` and
  their construction-time validation (`__post_init__`);
* `app/core/services/topology_service.py` — `validate_dependencies`,
  `detect_cycles`, `_kahn_sort`, `_dfs_sort`, `sort_tasks`,
  `_find_cycles_in_subgraph`;
* `app/core/services/build_service.py` — `get_topological_sort` and the
  cache-using `get_sorted_tasks`;
* `app/infrastructure/cache/redis_client.py` and `cache_service.py` — the
  failure-swallowing cache layer.

Modelling conventions:

* Python `Dict[str, Task]` is an insertion-ordered association list
  `List (String × Task)`; well-formed dictionaries have `Nodup` keys.
* Python `Set[str]` is a `List String` holding the set's elements
  (`Nodup` under well-formedness).  Python iterates sets in an
  unspecified hash order, so every place the code iterates a set the
  embedding takes an explicit iteration-order parameter
  `setIter : List String → List String`; the behaviours of the real
  program are exactly those where `setIter l` is a permutation of `l`.
* Exceptions are an explicit error type `PyErr` and fallible code
  returns `Except PyErr _`.
* `time.perf_counter` elapsed time is a parameter `elapsedMs : Int`
  (`perf_counter` is monotone, so real runs have `0 ≤ elapsedMs`).
* `Task`/`Build` carry only the fields the modelled operations read;
  lifecycle status, timestamps and `error_message` are never consulted
  by the graph engine and are elided.
-/

set_option maxHeartbeats 1000000

namespace BuildSys

/-- `Task` entity (entities.py lines 10-29): a name and the set of
prerequisite task names. -/
structure Task where
  name : String
  dependencies : List String
deriving DecidableEq, Repr

/-- `Build` entity (entities.py lines 55-74): a name and the ordered list
of member task names. -/
structure Build where
  name : String
  tasks : List String
deriving DecidableEq, Repr

/-- `SortedTaskList` result entity (entities.py lines 90-109). -/
structure SortedTaskList where
  build_name : String
  tasks : List String
  algorithm_used : String
  execution_time_ms : Int
  has_cycles : Bool
  cycle_details : Option (List String)
deriving DecidableEq, Repr

/-- `SortAlgorithm` enum (enums.py lines 25-29). -/
inductive SortAlgorithm where
  | kahn
  | dfs
deriving DecidableEq, Repr

/-- `SortAlgorithm.value` — the string payload of the `str`-enum. -/
def SortAlgorithm.value : SortAlgorithm → String
  | .kahn => "kahn"
  | .dfs => "dfs"

/-- The exception taxonomy of `app/core/exceptions.py`, plus the built-in
`ValueError`/`TypeError` that the code can raise. -/
inductive PyErr where
  | valueError (msg : String)
  | typeError (msg : String)
  | taskNotFound (msg : String)
  | buildNotFound (msg : String)
  | circularDependency (cycle : List String)
  | topologicalSort (buildName : String) (reason : String)
deriving DecidableEq, Repr

/-- Python dictionary keyed by task name, in insertion order. -/
abbrev TaskDict := List (String × Task)

/-- `tasks[k]` / `tasks.get(k)`: first binding of key `k`. -/
def dictGet (d : TaskDict) (k : String) : Option Task :=
  match d with
  | [] => none
  | (k₀, t) :: rest => if k₀ = k then some t else dictGet rest k

/-- The keys of a dictionary, in iteration order. -/
def dictKeys (d : TaskDict) : List String := d.map Prod.fst

theorem dictGet_cons (k₀ : String) (t : Task) (rest : TaskDict) (k : String) :
    dictGet ((k₀, t) :: rest) k = if k₀ = k then some t else dictGet rest k := rfl

theorem dictGet_eq_none_iff (d : TaskDict) (k : String) :
    dictGet d k = none ↔ k ∉ dictKeys d := by
  induction d with
  | nil => simp [dictGet, dictKeys]
  | cons p rest ih =>
    obtain ⟨k₀, t⟩ := p
    by_cases h : k₀ = k
    · subst h
      simp [dictGet, dictKeys]
    · simp [dictGet, dictKeys, h, ih, Ne.symm h]

theorem dictGet_isSome_iff (d : TaskDict) (k : String) :
    (dictGet d k).isSome ↔ k ∈ dictKeys d := by
  rw [Option.isSome_iff_ne_none, ne_eq, dictGet_eq_none_iff]
  tauto

theorem dictGet_mem (d : TaskDict) (k : String) (t : Task)
    (h : dictGet d k = some t) : (k, t) ∈ d := by
  induction d with
  | nil => simp [dictGet] at h
  | cons p rest ih =>
    obtain ⟨k₀, t₀⟩ := p
    by_cases hk : k₀ = k
    · subst hk
      simp [dictGet] at h
      simp [h]
    · simp [dictGet, hk] at h
      exact List.mem_cons_of_mem _ (ih h)

/-- Truthiness of an `Optional[List[str]]` (Python: `None` and `[]` are
falsy). -/
def optListFalsy : Option (List String) → Bool
  | none => true
  | some [] => true
  | some (_ :: _) => false

/-- `Task.__post_init__` (entities.py lines 31-36): construction raises
`ValueError` on an empty name or a self-dependency. -/
def mkTask (name : String) (dependencies : List String) : Except PyErr Task :=
  if name = "" then .error (.valueError ("Task name cannot be empty"))
  else if name ∈ dependencies then .error (.valueError ("Task cannot depend on itself"))
  else .ok ⟨name, dependencies⟩

/-- `Build.__post_init__` (entities.py lines 76-83): construction raises
`ValueError` on an empty name, an empty member list, or duplicate members
(`len(self.tasks) != len(set(self.tasks))`). -/
def mkBuild (name : String) (tasks : List String) : Except PyErr Build :=
  if name = "" then .error (.valueError ("Build name cannot be empty"))
  else if tasks = [] then .error (.valueError ("Build must contain at least one task"))
  else if tasks.length ≠ tasks.dedup.length then .error (.valueError ("Build cannot contain duplicate tasks"))
  else .ok ⟨name, tasks⟩

/-- `SortedTaskList.__post_init__` (entities.py lines 111-118). -/
def mkSortedTaskList (build_name : String) (tasks : List String)
    (algorithm_used : String) (execution_time_ms : Int)
    (has_cycles : Bool) (cycle_details : Option (List String)) :
    Except PyErr SortedTaskList :=
  if build_name = "" then .error (.valueError ("Build name cannot be empty"))
  else if has_cycles && optListFalsy cycle_details then
    .error (.valueError ("Cycle details required when cycles detected"))
  else if execution_time_ms < 0 then
    .error (.valueError ("Execution time cannot be negative"))
  else .ok ⟨build_name, tasks, algorithm_used, execution_time_ms, has_cycles, cycle_details⟩

/-- The prerequisite set of task `n` in the universe (empty for an absent
task; the sorting code only reads prerequisites of present tasks). -/
def depsOf (tasks : TaskDict) (n : String) : List String :=
  match dictGet tasks n with
  | some t => t.dependencies
  | none => []

/-- `TopologyService.validate_dependencies` (topology_service.py lines
125-155): collect every build member absent from the universe and every
prerequisite (of a present member) absent from the universe, then
de-duplicate (`list(set(missing_deps))`; Python's resulting order is an
unspecified set order, the embedding keeps first occurrences).  The
defensive `hasattr(task, 'dependencies')` branch is unreachable for
dictionaries of `Task` values and is not modelled. -/
def validate_dependencies (build : Build) (tasks : TaskDict) : List String :=
  (build.tasks.foldl (fun acc m =>
    match dictGet tasks m with
    | none => acc ++ [m]
    | some t => acc ++ t.dependencies.filter (fun dep => (dictGet tasks dep).isNone)) []).dedup

/-- Dependency edge of the full task universe: `u → v` when both names are
present and `v` is a prerequisite of `u` (this is the graph that
`detect_cycles` walks: it follows `dep` only when `dep in tasks`). -/
def UEdge (tasks : TaskDict) (u v : String) : Prop :=
  u ∈ dictKeys tasks ∧ v ∈ dictKeys tasks ∧ v ∈ depsOf tasks u

/-- Dependency edge of the induced subgraph of a build: both endpoints are
build members and `v` is a prerequisite of `u`. -/
def IEdge (build : Build) (tasks : TaskDict) (u v : String) : Prop :=
  u ∈ build.tasks ∧ v ∈ build.tasks ∧ v ∈ depsOf tasks u

/-- A directed graph has a cycle iff some node reaches itself in one or
more steps. -/
def HasCycle (E : String → String → Prop) : Prop :=
  ∃ n, Relation.TransGen E n n

/-- The loop shape produced by the cycle detector: a closed walk written
with its starting node repeated at the end (`[n, x₁, …, x_k, n]`). -/
def IsLoop (E : String → String → Prop) (c : List String) : Prop :=
  ∃ n l, c = n :: l ∧ l ≠ [] ∧ List.Chain E n l ∧ l.getLast? = some n

/-- Every edge out of the `i`-th element of `L` lands strictly earlier in
`L`: the certificate shape of a valid topological order (prerequisites
first). -/
def PrefixClosed (R : String → String → Prop) (L : List String) : Prop :=
  ∀ (i : ℕ) (h : i < L.length) (v : String), R (L.get ⟨i, h⟩) v → v ∈ L.take i

theorem chain_getLast_transGen {E : String → String → Prop} :
    ∀ (l : List String) (a b : String), List.Chain E a l → l.getLast? = some b →
      Relation.TransGen E a b := by
  intro l
  induction l with
  | nil => intro a b _ h; simp at h
  | cons x xs ih =>
    intro a b hchain hlast
    rcases List.chain_cons.mp hchain with ⟨hax, hxs⟩
    cases xs with
    | nil =>
      simp at hlast
      subst hlast
      exact Relation.TransGen.single hax
    | cons y ys =>
      have hlast' : (y :: ys).getLast? = some b := by
        simpa [List.getLast?] using hlast
      exact (Relation.TransGen.single hax).trans (ih x b hxs hlast')

theorem isLoop_hasCycle {E : String → String → Prop} {c : List String}
    (h : IsLoop E c) : HasCycle E := by
  obtain ⟨n, l, _, hne, hchain, hlast⟩ := h
  exact ⟨n, chain_getLast_transGen l n n hchain hlast⟩

theorem mem_take_indexOf_lt {x : String} :
    ∀ (L : List String) (i : ℕ), x ∈ L.take i → L.indexOf x < i := by
  intro L
  induction L with
  | nil => intro i h; simp at h
  | cons a as ih =>
    intro i h
    cases i with
    | zero => simp at h
    | succ j =>
      simp only [List.take_succ_cons, List.mem_cons] at h
      by_cases hax : x = a
      · subst hax
        simp [List.indexOf_cons_self]
      · have hx : x ∈ as.take j := by tauto
        have := ih j hx
        rw [List.indexOf_cons_ne _ (fun hc => hax hc.symm)]
        omega

theorem get_indexOf_self {L : List String} {x : String} (h : x ∈ L) :
    ∃ hi : L.indexOf x < L.length, L.get ⟨L.indexOf x, hi⟩ = x :=
  ⟨List.indexOf_lt_length.mpr h, List.indexOf_get _⟩

/-- Along a `PrefixClosed` list, each edge strictly decreases the index. -/
theorem prefixClosed_indexOf_lt {R : String → String → Prop} {L : List String}
    (hL : PrefixClosed R L) {u v : String} (hu : u ∈ L) (huv : R u v) :
    v ∈ L ∧ L.indexOf v < L.indexOf u := by
  obtain ⟨hi, hget⟩ := get_indexOf_self hu
  have hv : v ∈ L.take (L.indexOf u) := hL (L.indexOf u) hi v (by rwa [hget])
  exact ⟨List.mem_of_mem_take hv, mem_take_indexOf_lt L _ hv⟩

/-- A `PrefixClosed` witness list rules out cycles among its sources. -/
theorem prefixClosed_no_cycle {R : String → String → Prop} {L : List String}
    (hL : PrefixClosed R L) (hdom : ∀ u v, R u v → u ∈ L) : ¬ HasCycle R := by
  rintro ⟨n, hn⟩
  have key : ∀ a b, Relation.TransGen R a b → a ∈ L → b ∈ L ∧ L.indexOf b < L.indexOf a := by
    intro a b hab
    induction hab with
    | single h => intro ha; exact prefixClosed_indexOf_lt hL ha h
    | tail _ h ih =>
      intro ha
      obtain ⟨hb, hlt⟩ := ih ha
      obtain ⟨hc, hlt2⟩ := prefixClosed_indexOf_lt hL hb h
      exact ⟨hc, by omega⟩
  have hnL : n ∈ L := by
    obtain ⟨c, h, _⟩ := Relation.TransGen.head'_iff.mp hn
    exact hdom _ _ h
  have := key n n hn hnL
  omega

theorem iterate_mem_of_mem {S : List String} {f : String → String}
    (hf : ∀ m ∈ S, f m ∈ S) {a : String} (ha : a ∈ S) :
    ∀ k, f^[k] a ∈ S := by
  intro k
  induction k with
  | zero => simpa using ha
  | succ j ih => rw [Function.iterate_succ_apply']; exact hf _ ih

theorem transGen_iterate {R : String → String → Prop} {S : List String}
    {f : String → String} (hf : ∀ m ∈ S, f m ∈ S ∧ R m (f m)) {a : String}
    (ha : a ∈ S) : ∀ k, 0 < k → Relation.TransGen R a (f^[k] a) := by
  intro k
  induction k with
  | zero => omega
  | succ j ih =>
    intro _
    rcases Nat.eq_zero_or_pos j with hj | hj
    · subst hj
      simpa using Relation.TransGen.single (hf a ha).2
    · have hmem : f^[j] a ∈ S := iterate_mem_of_mem (fun m hm => (hf m hm).1) ha j
      rw [Function.iterate_succ_apply']
      exact (ih hj).tail (hf _ hmem).2

/-- A finite nonempty node set in which every node has an out-edge back
into the set contains a cycle. -/
theorem exists_cycle_of_out_edges {R : String → String → Prop}
    {S : List String} (hne : S ≠ []) (h : ∀ m ∈ S, ∃ d ∈ S, R m d) :
    HasCycle R := by
  classical
  set f : String → String := fun m =>
    if hm : m ∈ S then (h m hm).choose else m with hfdef
  have hf : ∀ m ∈ S, f m ∈ S ∧ R m (f m) := by
    intro m hm
    have := (h m hm).choose_spec
    simp only [hfdef, dif_pos hm]
    exact ⟨this.1, this.2⟩
  obtain ⟨a, ha⟩ := List.exists_mem_of_ne_nil S hne
  have hmaps : ∀ i ∈ Finset.range (S.length + 1), f^[i] a ∈ S.toFinset := by
    intro i _
    exact List.mem_toFinset.mpr (iterate_mem_of_mem (fun m hm => (hf m hm).1) ha i)
  have hcard : S.toFinset.card < (Finset.range (S.length + 1)).card := by
    have := S.toFinset_card_le
    simp only [Finset.card_range]
    omega
  obtain ⟨i, hi, j, hj, hij, heq⟩ :=
    Finset.exists_ne_map_eq_of_card_lt_of_maps_to hcard hmaps
  rcases Nat.lt_or_ge i j with hlt | hge
  · have hmem : f^[i] a ∈ S := iterate_mem_of_mem (fun m hm => (hf m hm).1) ha i
    refine ⟨f^[i] a, ?_⟩
    have := transGen_iterate hf hmem (j - i) (by omega)
    rwa [← Function.iterate_add_apply, Nat.sub_add_cancel (by omega), ← heq] at this
  · have hlt : j < i := by omega
    have hmem : f^[j] a ∈ S := iterate_mem_of_mem (fun m hm => (hf m hm).1) ha j
    refine ⟨f^[j] a, ?_⟩
    have := transGen_iterate hf hmem (i - j) (by omega)
    rwa [← Function.iterate_add_apply, Nat.sub_add_cancel (by omega), heq] at this

theorem foldl_append_mem (g : String → List String) :
    ∀ (ms acc : List String) (x : String),
      x ∈ ms.foldl (fun a m => a ++ g m) acc ↔ x ∈ acc ∨ ∃ m ∈ ms, x ∈ g m := by
  intro ms
  induction ms with
  | nil => simp
  | cons m rest ih =>
    intro acc x
    simp only [List.foldl_cons, ih, List.mem_append, List.mem_cons]
    constructor
    · rintro (⟨h | h⟩ | ⟨m₀, hm₀, hx⟩)
      · exact Or.inl h
      · exact Or.inr ⟨m, Or.inl rfl, h⟩
      · exact Or.inr ⟨m₀, Or.inr hm₀, hx⟩
    · rintro (h | ⟨m₀, (rfl | hm₀), hx⟩)
      · exact Or.inl (Or.inl h)
      · exact Or.inl (Or.inr hx)
      · exact Or.inr ⟨m₀, hm₀, hx⟩

/-- Membership characterisation of `validate_dependencies`: exactly the
names referenced but absent. -/
theorem validate_dependencies_mem (build : Build) (tasks : TaskDict) (x : String) :
    x ∈ validate_dependencies build tasks ↔
      ((x ∈ build.tasks ∧ dictGet tasks x = none) ∨
       (∃ m t, m ∈ build.tasks ∧ dictGet tasks m = some t ∧
          x ∈ t.dependencies ∧ dictGet tasks x = none)) := by
  unfold validate_dependencies
  rw [List.mem_dedup]
  have hstep : (fun (acc : List String) (m : String) =>
      match dictGet tasks m with
      | none => acc ++ [m]
      | some t => acc ++ t.dependencies.filter (fun dep => (dictGet tasks dep).isNone)) =
      (fun acc m => acc ++ (match dictGet tasks m with
        | none => [m]
        | some t => t.dependencies.filter (fun dep => (dictGet tasks dep).isNone))) := by
    funext acc m
    cases dictGet tasks m <;> rfl
  rw [hstep, foldl_append_mem]
  simp only [List.not_mem_nil, false_or]
  constructor
  · rintro ⟨m, hm, hx⟩
    rcases hget : dictGet tasks m with _ | t
    · rw [hget] at hx
      simp at hx
      subst hx
      exact Or.inl ⟨hm, hget⟩
    · rw [hget] at hx
      simp only [List.mem_filter, Option.isNone_iff_eq_none, decide_eq_true_eq] at hx
      exact Or.inr ⟨m, t, hm, hget, hx.1, hx.2⟩
  · rintro (⟨hm, hget⟩ | ⟨m, t, hm, hget, hdep, hx⟩)
    · exact ⟨x, hm, by rw [hget]; simp⟩
    · refine ⟨m, hm, ?_⟩
      rw [hget]
      simp only [List.mem_filter, Option.isNone_iff_eq_none, decide_eq_true_eq]
      exact ⟨hdep, hx⟩

theorem validate_dependencies_nodup (build : Build) (tasks : TaskDict) :
    (validate_dependencies build tasks).Nodup :=
  List.nodup_dedup _

/-- Referential soundness: every member exists, and every prerequisite of
a (present) member exists. -/
def ReferentiallySound (build : Build) (tasks : TaskDict) : Prop :=
  (∀ m ∈ build.tasks, m ∈ dictKeys tasks) ∧
  (∀ m ∈ build.tasks, ∀ d ∈ depsOf tasks m, d ∈ dictKeys tasks)

theorem validate_dependencies_eq_nil_iff (build : Build) (tasks : TaskDict) :
    validate_dependencies build tasks = [] ↔ ReferentiallySound build tasks := by
  rw [List.eq_nil_iff_forall_not_mem]
  constructor
  · intro h
    constructor
    · intro m hm
      by_contra hmem
      have hnone : dictGet tasks m = none := (dictGet_eq_none_iff _ _).mpr hmem
      exact h m ((validate_dependencies_mem _ _ _).mpr (Or.inl ⟨hm, hnone⟩))
    · intro m hm d hd
      by_contra hmem
      have hnone : dictGet tasks d = none := (dictGet_eq_none_iff _ _).mpr hmem
      rcases hget : dictGet tasks m with _ | t
      · unfold depsOf at hd
        rw [hget] at hd
        simp at hd
      · unfold depsOf at hd
        rw [hget] at hd
        exact h d ((validate_dependencies_mem _ _ _).mpr
          (Or.inr ⟨m, t, hm, hget, hd, hnone⟩))
  · rintro ⟨h1, h2⟩ x hx
    rcases (validate_dependencies_mem _ _ _).mp hx with ⟨hm, hnone⟩ | ⟨m, t, hm, hget, hdep, hnone⟩
    · exact (dictGet_eq_none_iff _ _).mp hnone (h1 x hm)
    · refine (dictGet_eq_none_iff _ _).mp hnone (h2 m hm x ?_)
      unfold depsOf
      rw [hget]
      exact hdep

/-- Mutable state of `detect_cycles` (topology_service.py lines 92-94):
the shared `visited` set (in insertion order) and the accumulated
`cycles` list.  The recursion stack `rec_stack` always holds exactly the
names on the current `path` (both are pushed/popped together), so it is
represented by `path` alone. -/
structure DetectState where
  visited : List String
  cycles : List (List String)
deriving DecidableEq, Repr

/-- `dfs_cycle_detection` (topology_service.py lines 96-117), with a fuel
argument standing in for Python's unbounded recursion; the top-level
caller supplies fuel exceeding the number of dictionary keys, which the
lemmas below show is never exhausted.  `setIter` fixes the unspecified
iteration order of the `task.dependencies` set. -/
def dfsCD (tasks : TaskDict) (setIter : List String → List String) :
    ℕ → String → List String → DetectState → DetectState
  | 0, _, _, st => st
  | fuel+1, n, path, st =>
    if n ∈ path then
      { st with cycles := st.cycles ++ [path.drop (path.indexOf n) ++ [n]] }
    else if n ∈ st.visited then st
    else
      let st1 : DetectState := ⟨st.visited ++ [n], st.cycles⟩
      match dictGet tasks n with
      | none => st1
      | some t =>
        ((setIter t.dependencies).filter (fun dep => (dictGet tasks dep).isSome)).foldl
          (fun s dep => dfsCD tasks setIter fuel dep (path ++ [n]) s) st1

/-- `TopologyService.detect_cycles` (topology_service.py lines 82-123):
run the DFS from every not-yet-visited key, in dictionary order. -/
def detect_cycles (setIter : List String → List String) (tasks : TaskDict) :
    List (List String) :=
  ((dictKeys tasks).foldl
    (fun st n => if n ∈ st.visited then st else dfsCD tasks setIter (tasks.length + 1) n [] st)
    ⟨[], []⟩).cycles

/-- State extension: visited and cycles only ever grow by appending. -/
def DExt (st st' : DetectState) : Prop :=
  (∃ v, st'.visited = st.visited ++ v) ∧ (∃ c, st'.cycles = st.cycles ++ c)

theorem DExt.refl (st : DetectState) : DExt st st :=
  ⟨⟨[], by simp⟩, ⟨[], by simp⟩⟩

theorem DExt.trans {a b c : DetectState} (h1 : DExt a b) (h2 : DExt b c) : DExt a c := by
  obtain ⟨⟨v1, hv1⟩, ⟨c1, hc1⟩⟩ := h1
  obtain ⟨⟨v2, hv2⟩, ⟨c2, hc2⟩⟩ := h2
  exact ⟨⟨v1 ++ v2, by simp [hv2, hv1]⟩, ⟨c1 ++ c2, by simp [hc2, hc1]⟩⟩

theorem foldl_preserves {σ α : Type} (Ext : σ → σ → Prop)
    (htrans : ∀ a b c, Ext a b → Ext b c → Ext a c)
    (hrefl : ∀ s, Ext s s) (f : σ → α → σ) (h : ∀ s x, Ext s (f s x)) :
    ∀ (l : List α) (s : σ), Ext s (l.foldl f s) := by
  intro l
  induction l with
  | nil => intro s; exact hrefl s
  | cons x xs ih =>
    intro s
    exact htrans _ _ _ (h s x) (ih (f s x))

theorem dfsCD_ext (tasks : TaskDict) (si : List String → List String) :
    ∀ (fuel : ℕ) (n : String) (path : List String) (st : DetectState),
      DExt st (dfsCD tasks si fuel n path st) := by
  intro fuel
  induction fuel with
  | zero => intro n path st; exact DExt.refl st
  | succ fuel ih =>
    intro n path st
    rw [dfsCD]
    by_cases hp : n ∈ path
    · simp only [if_pos hp]
      exact ⟨⟨[], by simp⟩, ⟨_, rfl⟩⟩
    · simp only [if_neg hp]
      by_cases hv : n ∈ st.visited
      · simp only [if_pos hv]
        exact DExt.refl st
      · simp only [if_neg hv]
        have hbase : DExt st ⟨st.visited ++ [n], st.cycles⟩ :=
          ⟨⟨[n], rfl⟩, ⟨[], by simp⟩⟩
        cases dictGet tasks n with
        | none => exact hbase
        | some t =>
          exact DExt.trans hbase
            (foldl_preserves DExt (fun _ _ _ => DExt.trans) DExt.refl _
              (fun s dep => ih dep (path ++ [n]) s) _ _)

/-- The soundness invariant: every recorded cycle is a genuine dependency
loop of the universe graph. -/
theorem dfsCD_sound (tasks : TaskDict) (si : List String → List String)
    (hIter : ∀ l, (si l).Perm l) :
    ∀ (fuel : ℕ) (n : String) (path : List String) (st : DetectState),
      List.Chain' (UEdge tasks) path →
      (∀ lastel, path.getLast? = some lastel → UEdge tasks lastel n) →
      (∀ c ∈ st.cycles, IsLoop (UEdge tasks) c) →
      ∀ c ∈ (dfsCD tasks si fuel n path st).cycles, IsLoop (UEdge tasks) c := by
  intro fuel
  induction fuel with
  | zero => intro n path st _ _ hcyc; exact hcyc
  | succ fuel ih =>
    intro n path st hchain hcall hcyc
    rw [dfsCD]
    by_cases hp : n ∈ path
    · simp only [if_pos hp]
      intro c hc
      simp only [List.mem_append, List.mem_singleton] at hc
      rcases hc with hc | hc
      · exact hcyc c hc
      · subst hc
        -- the recorded cycle is `path[i:] ++ [n]` where `i` is the first
        -- index of `n` in `path`
        have hi : path.indexOf n < path.length := List.indexOf_lt_length.mpr hp
        have hdropeq : path.drop (path.indexOf n) =
            n :: path.drop (path.indexOf n + 1) := by
          have := List.drop_eq_getElem_cons hi
          rwa [List.getElem_indexOf hi] at this
        refine ⟨n, path.drop (path.indexOf n + 1) ++ [n], ?_, by simp, ?_, ?_⟩
        · rw [hdropeq]; simp
        · -- chain: the suffix of the path is a chain, and the last path
          -- element has an edge to `n`
          have hchain2 : List.Chain' (UEdge tasks) (path.drop (path.indexOf n)) :=
            hchain.drop _
          rw [hdropeq] at hchain2
          have hlast : ∀ lastel, (n :: path.drop (path.indexOf n + 1)).getLast? = some lastel →
              UEdge tasks lastel n := by
            intro lastel hl
            apply hcall
            have hne : path ≠ [] := List.ne_nil_of_mem hp
            have : path.getLast? = (path.drop (path.indexOf n)).getLast? := by
              conv_lhs => rw [← List.take_append_drop (path.indexOf n) path]
              rw [List.getLast?_append_of_ne_nil]
              rw [hdropeq]; simp
            rw [this, hdropeq]
            exact hl
          -- assemble `Chain (n :: (drop ++ [n]))`
          have : List.Chain' (UEdge tasks) ((n :: path.drop (path.indexOf n + 1)) ++ [n]) := by
            rw [List.chain'_append]
            refine ⟨hchain2, List.chain'_singleton n, ?_⟩
            intro x hx y hy
            simp at hy
            subst hy
            exact hlast x hx
          simpa [List.cons_append] using this
        · rw [List.getLast?_append_cons]
          rfl
    · simp only [if_neg hp]
      by_cases hv : n ∈ st.visited
      · simp only [if_pos hv]
        exact hcyc
      · simp only [if_neg hv]
        rcases hget : dictGet tasks n with _ | t
        · exact hcyc
        · have hnkeys : n ∈ dictKeys tasks := by
            rw [← dictGet_isSome_iff, hget]; rfl
          -- edges for the recursive calls
          have hdepedge : ∀ dep ∈ (si t.dependencies).filter
              (fun dep => (dictGet tasks dep).isSome), UEdge tasks n dep := by
            intro dep hdep
            rw [List.mem_filter] at hdep
            refine ⟨hnkeys, (dictGet_isSome_iff _ _).mp (by simpa using hdep.2), ?_⟩
            unfold depsOf
            rw [hget]
            exact (hIter t.dependencies).mem_iff.mp hdep.1
          have hchain2 : List.Chain' (UEdge tasks) (path ++ [n]) := by
            rw [List.chain'_append]
            refine ⟨hchain, List.chain'_singleton n, ?_⟩
            intro x hx y hy
            simp at hy
            subst hy
            exact hcall x hx
          have hcall2 : ∀ dep ∈ (si t.dependencies).filter
              (fun dep => (dictGet tasks dep).isSome),
              ∀ lastel, (path ++ [n]).getLast? = some lastel → UEdge tasks lastel dep := by
            intro dep hdep lastel hl
            rw [List.getLast?_append_cons] at hl
            simp at hl
            subst hl
            exact hdepedge dep hdep
          -- fold over the dependency list
          have aux : ∀ (deps : List String) (s : DetectState),
              (∀ dep ∈ deps, ∀ lastel, (path ++ [n]).getLast? = some lastel →
                UEdge tasks lastel dep) →
              (∀ c ∈ s.cycles, IsLoop (UEdge tasks) c) →
              ∀ c ∈ (deps.foldl (fun s dep => dfsCD tasks si fuel dep (path ++ [n]) s) s).cycles,
                IsLoop (UEdge tasks) c := by
            intro deps
            induction deps with
            | nil => intro s _ hs; exact hs
            | cons d ds ihd =>
              intro s hcalls hs
              simp only [List.foldl_cons]
              exact ihd _ (fun dep hdep => hcalls dep (List.mem_cons_of_mem _ hdep))
                (ih d (path ++ [n]) s hchain2 (hcalls d (List.mem_cons_self _ _)) hs)
          exact aux _ _ hcall2 hcyc

theorem detect_cycles_sound (tasks : TaskDict) (si : List String → List String)
    (hIter : ∀ l, (si l).Perm l) :
    ∀ c ∈ detect_cycles si tasks, IsLoop (UEdge tasks) c := by
  unfold detect_cycles
  have aux : ∀ (ks : List String) (st : DetectState),
      (∀ c ∈ st.cycles, IsLoop (UEdge tasks) c) →
      ∀ c ∈ (ks.foldl (fun st n => if n ∈ st.visited then st
        else dfsCD tasks si (tasks.length + 1) n [] st) st).cycles,
        IsLoop (UEdge tasks) c := by
    intro ks
    induction ks with
    | nil => intro st hs; exact hs
    | cons k ks ihk =>
      intro st hs
      simp only [List.foldl_cons]
      by_cases hv : k ∈ st.visited
      · simp only [if_pos hv]
        exact ihk st hs
      · simp only [if_neg hv]
        exact ihk _ (dfsCD_sound tasks si hIter _ k [] st (by simp) (by simp) hs)
  exact aux _ _ (by simp)

/-- `detect_cycles` on an acyclic universe records nothing. -/
theorem detect_cycles_eq_nil_of_acyclic (tasks : TaskDict)
    (si : List String → List String) (hIter : ∀ l, (si l).Perm l)
    (hacyc : ¬ HasCycle (UEdge tasks)) : detect_cycles si tasks = [] := by
  rcases h : detect_cycles si tasks with _ | ⟨c, cs⟩
  · rfl
  · exfalso
    apply hacyc
    have := detect_cycles_sound tasks si hIter
    rw [h] at this
    exact isLoop_hasCycle (this c (List.mem_cons_self _ _))

/-- Number of node names (from a fixed key list) not yet visited; the
DFS fuel bound. -/
def unvisitedLen (keys : List String) (V : List String) : ℕ :=
  keys.countP (fun k => decide (k ∉ V))

theorem unvisitedLen_mono (keys : List String) (V ext : List String) :
    unvisitedLen keys (V ++ ext) ≤ unvisitedLen keys V := by
  apply List.countP_mono_left
  intro x _ hx
  simp only [decide_eq_true_eq] at hx ⊢
  intro hxv
  exact hx (List.mem_append_left _ hxv)

theorem unvisitedLen_lt (keys : List String) (V : List String) (n : String)
    (hn : n ∈ keys) (hnv : n ∉ V) :
    unvisitedLen keys (V ++ [n]) < unvisitedLen keys V := by
  obtain ⟨a, b, hab⟩ := List.append_of_mem hn
  unfold unvisitedLen
  rw [hab, List.countP_append, List.countP_append, List.countP_cons, List.countP_cons]
  have h1 : (decide (n ∉ V ++ [n]) : Bool) = false := by simp
  have h2 : (decide (n ∉ V) : Bool) = true := by simp [hnv]
  rw [h1, h2]
  have hif1 : (if (false = true) then 1 else 0) = 0 := by simp
  have hif2 : (if (true = true) then 1 else 0) = 1 := by simp
  rw [hif1, hif2]
  have hmono : ∀ (l : List String),
      l.countP (fun k => decide (k ∉ V ++ [n])) ≤ l.countP (fun k => decide (k ∉ V)) := by
    intro l
    apply List.countP_mono_left
    intro x _ hx
    simp only [decide_eq_true_eq, List.mem_append] at hx ⊢
    tauto
  have ha := hmono a
  have hb := hmono b
  omega

/-- Topological-order certificate for the already-finished nodes: some
ordering `L` of `V \ path` in which every dependency edge points
strictly backwards. -/
def OrdCert (tasks : TaskDict) (V p : List String) : Prop :=
  ∃ L : List String, L.Nodup ∧ (∀ x, x ∈ L ↔ (x ∈ V ∧ x ∉ p)) ∧
    PrefixClosed (UEdge tasks) L

/-- Invariant of the cycle-detection DFS when no cycle has been found. -/
def DInv (tasks : TaskDict) (path : List String) (st : DetectState) : Prop :=
  (∀ x ∈ st.visited, x ∈ dictKeys tasks) ∧ st.visited.Nodup ∧
  (∀ x ∈ path, x ∈ st.visited) ∧ OrdCert tasks st.visited path

theorem prefixClosed_append_one {R : String → String → Prop} {L : List String}
    {n : String} (hL : PrefixClosed R L) (h : ∀ v, R n v → v ∈ L) :
    PrefixClosed R (L ++ [n]) := by
  intro i hi v hrv
  rcases Nat.lt_or_ge i L.length with hlt | hge
  · have hget : (L ++ [n]).get ⟨i, hi⟩ = L.get ⟨i, hlt⟩ := List.get_append i hlt
    rw [hget] at hrv
    rw [List.take_append_of_le_length (Nat.le_of_lt hlt)]
    exact hL i hlt v hrv
  · have hi2 : i < L.length + 1 := by
      have := hi; simpa using this
    have hieq : i = L.length := by omega
    subst hieq
    have hget : (L ++ [n]).get ⟨L.length, hi⟩ = n := by
      rw [List.get_eq_getElem]
      exact List.getElem_concat_length L n L.length rfl hi
    rw [hget] at hrv
    rw [List.take_append_of_le_length (le_refl _), List.take_length]
    exact h v hrv

theorem append_append_eq_self {α : Type} {l : List α} {a b : List α}
    (h : (l ++ a) ++ b = l) : a = [] ∧ b = [] := by
  rw [List.append_assoc] at h
  have := List.append_right_eq_self.mp h
  exact List.append_eq_nil.mp this

/-- Main completeness invariant: if a `dfs_cycle_detection` call records
no cycle, the visited-set invariants and the topological-order
certificate survive, and the visited node is not on the stack. -/
theorem dfsCD_complete (tasks : TaskDict) (si : List String → List String)
    (hIter : ∀ l, (si l).Perm l) :
    ∀ (fuel : ℕ) (n : String) (path : List String) (st : DetectState),
      n ∈ dictKeys tasks →
      DInv tasks path st →
      unvisitedLen (dictKeys tasks) st.visited + 1 ≤ fuel →
      (dfsCD tasks si fuel n path st).cycles = st.cycles →
      n ∈ (dfsCD tasks si fuel n path st).visited ∧ n ∉ path ∧
        DInv tasks path (dfsCD tasks si fuel n path st) := by
  intro fuel
  induction fuel with
  | zero => intro n path st _ _ hfuel _; omega
  | succ fuel ih =>
    intro n path st hn hinv hfuel hcyc
    rw [dfsCD] at hcyc ⊢
    by_cases hp : n ∈ path
    · exfalso
      simp only [if_pos hp] at hcyc
      have := congrArg List.length hcyc
      simp at this
    · simp only [if_neg hp] at hcyc ⊢
      by_cases hv : n ∈ st.visited
      · simp only [if_pos hv] at hcyc ⊢
        exact ⟨hv, hp, hinv⟩
      · simp only [if_neg hv] at hcyc ⊢
        rcases hget : dictGet tasks n with _ | t
        · exact absurd ((dictGet_eq_none_iff tasks n).mp hget) (by simpa using hn)
        · rw [hget] at hcyc
          replace hcyc : (((si t.dependencies).filter
              (fun dep => (dictGet tasks dep).isSome)).foldl
              (fun s dep => dfsCD tasks si fuel dep (path ++ [n]) s)
              ⟨st.visited ++ [n], st.cycles⟩).cycles = st.cycles := hcyc
          show n ∈ (((si t.dependencies).filter
              (fun dep => (dictGet tasks dep).isSome)).foldl
              (fun s dep => dfsCD tasks si fuel dep (path ++ [n]) s)
              ⟨st.visited ++ [n], st.cycles⟩).visited ∧ n ∉ path ∧
            DInv tasks path (((si t.dependencies).filter
              (fun dep => (dictGet tasks dep).isSome)).foldl
              (fun s dep => dfsCD tasks si fuel dep (path ++ [n]) s)
              ⟨st.visited ++ [n], st.cycles⟩)
          obtain ⟨hkeys, hnodup, hpathv, L, hLnd, hLmem, hLpc⟩ := hinv
          -- the state after marking `n` visited
          have hinv1 : DInv tasks (path ++ [n]) ⟨st.visited ++ [n], st.cycles⟩ := by
            refine ⟨?_, ?_, ?_, L, hLnd, ?_, hLpc⟩
            · intro x hx
              rcases List.mem_append.mp hx with hx | hx
              · exact hkeys x hx
              · simp at hx; subst hx; exact hn
            · rw [List.nodup_append]
              exact ⟨hnodup, List.nodup_singleton n, by
                intro x hx hx2
                simp at hx2
                subst hx2
                exact hv hx⟩
            · intro x hx
              rcases List.mem_append.mp hx with hx | hx
              · exact List.mem_append_left _ (hpathv x hx)
              · exact List.mem_append_right _ hx
            · intro x
              rw [hLmem x]
              constructor
              · rintro ⟨hxv, hxp⟩
                refine ⟨List.mem_append_left _ hxv, ?_⟩
                intro hc
                rcases List.mem_append.mp hc with hc | hc
                · exact hxp hc
                · simp at hc; subst hc; exact hv hxv
              · rintro ⟨hxv, hxp⟩
                rcases List.mem_append.mp hxv with hxv | hxv
                · exact ⟨hxv, fun hc => hxp (List.mem_append_left _ hc)⟩
                · simp at hxv
                  subst hxv
                  exact absurd (List.mem_append_right _ (by simp)) hxp
          have hfuel1 : unvisitedLen (dictKeys tasks) (st.visited ++ [n]) + 1 ≤ fuel := by
            have := unvisitedLen_lt (dictKeys tasks) st.visited n hn hv
            omega
          -- the inner fold over the (filtered) dependency list
          have aux : ∀ (deps : List String) (s : DetectState),
              (∀ dep ∈ deps, dep ∈ dictKeys tasks) →
              DInv tasks (path ++ [n]) s →
              unvisitedLen (dictKeys tasks) s.visited + 1 ≤ fuel →
              (deps.foldl (fun s dep => dfsCD tasks si fuel dep (path ++ [n]) s) s).cycles
                = s.cycles →
              DInv tasks (path ++ [n])
                (deps.foldl (fun s dep => dfsCD tasks si fuel dep (path ++ [n]) s) s) ∧
              (∀ dep ∈ deps,
                dep ∈ (deps.foldl (fun s dep => dfsCD tasks si fuel dep (path ++ [n]) s) s).visited ∧
                dep ∉ path ++ [n]) := by
            intro deps
            induction deps with
            | nil => intro s _ hs _ _; exact ⟨hs, by simp⟩
            | cons d ds ihd =>
              intro s hdk hs hsfuel hcycs
              simp only [List.foldl_cons] at hcycs ⊢
              -- sandwich the cycle lists to see no step recorded anything
              obtain ⟨⟨ev, hev⟩, ⟨ec, hec⟩⟩ :=
                dfsCD_ext tasks si fuel d (path ++ [n]) s
              obtain ⟨⟨fv, hfv⟩, ⟨fc, hfc⟩⟩ :=
                foldl_preserves DExt (fun _ _ _ => DExt.trans) DExt.refl
                  (fun s dep => dfsCD tasks si fuel dep (path ++ [n]) s)
                  (fun s dep => dfsCD_ext tasks si fuel dep (path ++ [n]) s) ds
                  (dfsCD tasks si fuel d (path ++ [n]) s)
              rw [hfc, hec] at hcycs
              obtain ⟨hec0, hfc0⟩ := append_append_eq_self hcycs
              have hcyc1 : (dfsCD tasks si fuel d (path ++ [n]) s).cycles = s.cycles := by
                rw [hec, hec0]; simp
              have hd := ih d (path ++ [n]) s (hdk d (List.mem_cons_self _ _)) hs hsfuel hcyc1
              obtain ⟨hdvis, hdnp, hinv2⟩ := hd
              have hsfuel2 : unvisitedLen (dictKeys tasks)
                  (dfsCD tasks si fuel d (path ++ [n]) s).visited + 1 ≤ fuel := by
                have := unvisitedLen_mono (dictKeys tasks) s.visited ev
                rw [← hev] at this
                omega
              have hcycs2 : (ds.foldl (fun s dep => dfsCD tasks si fuel dep (path ++ [n]) s)
                  (dfsCD tasks si fuel d (path ++ [n]) s)).cycles
                  = (dfsCD tasks si fuel d (path ++ [n]) s).cycles := by
                rw [hfc, hfc0]; simp
              obtain ⟨hfinalinv, hfinals⟩ :=
                ihd (dfsCD tasks si fuel d (path ++ [n]) s)
                  (fun dep hdep => hdk dep (List.mem_cons_of_mem _ hdep)) hinv2 hsfuel2 hcycs2
              refine ⟨hfinalinv, ?_⟩
              intro dep hdep
              rcases List.mem_cons.mp hdep with rfl | hdep
              · refine ⟨?_, hdnp⟩
                rw [hfv]
                exact List.mem_append_left _ hdvis
              · exact hfinals dep hdep
          have hdepskeys : ∀ dep ∈ (si t.dependencies).filter
              (fun dep => (dictGet tasks dep).isSome), dep ∈ dictKeys tasks := by
            intro dep hdep
            rw [List.mem_filter] at hdep
            exact (dictGet_isSome_iff _ _).mp (by simpa using hdep.2)
          obtain ⟨hfinv, hfdeps⟩ := aux _ _ hdepskeys hinv1 hfuel1 hcyc
          obtain ⟨hfkeys, hfnodup, hfpath, L2, hL2nd, hL2mem, hL2pc⟩ := hfinv
          -- visited monotonicity of the fold
          obtain ⟨⟨gv, hgv⟩, _⟩ :=
            foldl_preserves DExt (fun _ _ _ => DExt.trans) DExt.refl
              (fun s dep => dfsCD tasks si fuel dep (path ++ [n]) s)
              (fun s dep => dfsCD_ext tasks si fuel dep (path ++ [n]) s)
              ((si t.dependencies).filter (fun dep => (dictGet tasks dep).isSome))
              ⟨st.visited ++ [n], st.cycles⟩
          have hnvis : n ∈ (((si t.dependencies).filter
              (fun dep => (dictGet tasks dep).isSome)).foldl
              (fun s dep => dfsCD tasks si fuel dep (path ++ [n]) s)
              ⟨st.visited ++ [n], st.cycles⟩).visited := by
            rw [hgv]
            simp
          refine ⟨hnvis, hp, ?_, ?_, ?_, L2 ++ [n], ?_, ?_, ?_⟩
          · exact hfkeys
          · exact hfnodup
          · intro x hx
            exact hfpath x (List.mem_append_left _ hx)
          · -- nodup of the extended certificate
            rw [List.nodup_append]
            refine ⟨hL2nd, List.nodup_singleton n, ?_⟩
            intro x hx hx2
            simp at hx2
            subst hx2
            have := (hL2mem x).mp hx
            exact this.2 (List.mem_append_right _ (by simp))
          · -- contents of the extended certificate
            intro x
            constructor
            · intro hx
              rcases List.mem_append.mp hx with hx | hx
              · have := (hL2mem x).mp hx
                exact ⟨this.1, fun hc => this.2 (List.mem_append_left _ hc)⟩
              · simp at hx
                subst hx
                exact ⟨hnvis, hp⟩
            · rintro ⟨hxv, hxp⟩
              by_cases hxn : x = n
              · subst hxn
                exact List.mem_append_right _ (by simp)
              · refine List.mem_append_left _ ((hL2mem x).mpr ⟨hxv, ?_⟩)
                intro hc
                rcases List.mem_append.mp hc with hc | hc
                · exact hxp hc
                · simp at hc; exact hxn hc
          · -- prefix-closure of the extended certificate
            apply prefixClosed_append_one hL2pc
            intro v hedge
            obtain ⟨_, hvkeys, hvdep⟩ := hedge
            have hvdep2 : v ∈ depsOf tasks n := hvdep
            unfold depsOf at hvdep2
            rw [hget] at hvdep2
            have hvin : v ∈ (si t.dependencies).filter
                (fun dep => (dictGet tasks dep).isSome) := by
              rw [List.mem_filter]
              exact ⟨(hIter t.dependencies).mem_iff.mpr hvdep2,
                (dictGet_isSome_iff _ _).mpr hvkeys⟩
            obtain ⟨hvvis, hvnp⟩ := hfdeps v hvin
            exact (hL2mem v).mpr ⟨hvvis, hvnp⟩

theorem unvisitedLen_le (keys : List String) (V : List String) :
    unvisitedLen keys V ≤ keys.length := by
  unfold unvisitedLen
  rw [List.countP_eq_length_filter]
  exact List.length_filter_le _ _

/-- If `detect_cycles` reports nothing, the universe graph is acyclic. -/
theorem detect_cycles_empty_acyclic (tasks : TaskDict)
    (si : List String → List String) (hIter : ∀ l, (si l).Perm l)
    (hdet : detect_cycles si tasks = []) : ¬ HasCycle (UEdge tasks) := by
  unfold detect_cycles at hdet
  have aux : ∀ (ks : List String) (st : DetectState),
      (∀ k ∈ ks, k ∈ dictKeys tasks) →
      DInv tasks [] st →
      (ks.foldl (fun st n => if n ∈ st.visited then st
        else dfsCD tasks si (tasks.length + 1) n [] st) st).cycles = st.cycles →
      DInv tasks [] (ks.foldl (fun st n => if n ∈ st.visited then st
        else dfsCD tasks si (tasks.length + 1) n [] st) st) ∧
      ∀ k ∈ ks, k ∈ (ks.foldl (fun st n => if n ∈ st.visited then st
        else dfsCD tasks si (tasks.length + 1) n [] st) st).visited := by
    intro ks
    induction ks with
    | nil => intro st _ hs _; exact ⟨hs, by simp⟩
    | cons k rest ihk =>
      intro st hks hs hcycs
      simp only [List.foldl_cons] at hcycs ⊢
      by_cases hv : k ∈ st.visited
      · simp only [if_pos hv] at hcycs ⊢
        obtain ⟨hinv2, hrest⟩ := ihk st (fun x hx => hks x (List.mem_cons_of_mem _ hx)) hs hcycs
        refine ⟨hinv2, ?_⟩
        intro x hx
        rcases List.mem_cons.mp hx with rfl | hx
        · obtain ⟨⟨gv, hgv⟩, _⟩ :=
            foldl_preserves DExt (fun _ _ _ => DExt.trans) DExt.refl
              (fun st n => if n ∈ st.visited then st
                else dfsCD tasks si (tasks.length + 1) n [] st)
              (fun s n => by
                dsimp only
                by_cases h : n ∈ s.visited
                · rw [if_pos h]; exact DExt.refl s
                · rw [if_neg h]; exact dfsCD_ext tasks si _ n [] s) rest st
          rw [hgv]
          exact List.mem_append_left _ hv
        · exact hrest x hx
      · simp only [if_neg hv] at hcycs ⊢
        obtain ⟨⟨ev, hev⟩, ⟨ec, hec⟩⟩ := dfsCD_ext tasks si (tasks.length + 1) k [] st
        obtain ⟨⟨fv, hfv⟩, ⟨fc, hfc⟩⟩ :=
          foldl_preserves DExt (fun _ _ _ => DExt.trans) DExt.refl
            (fun st n => if n ∈ st.visited then st
              else dfsCD tasks si (tasks.length + 1) n [] st)
            (fun s n => by
              dsimp only
              by_cases h : n ∈ s.visited
              · rw [if_pos h]; exact DExt.refl s
              · rw [if_neg h]; exact dfsCD_ext tasks si _ n [] s) rest
            (dfsCD tasks si (tasks.length + 1) k [] st)
        rw [hfc, hec] at hcycs
        obtain ⟨hec0, hfc0⟩ := append_append_eq_self hcycs
        have hcyc1 : (dfsCD tasks si (tasks.length + 1) k [] st).cycles = st.cycles := by
          rw [hec, hec0]; simp
        have hfuel : unvisitedLen (dictKeys tasks) st.visited + 1 ≤ tasks.length + 1 := by
          have h1 := unvisitedLen_le (dictKeys tasks) st.visited
          have h2 : (dictKeys tasks).length = tasks.length := by
            unfold dictKeys
            simp
          omega
        obtain ⟨hkvis, _, hinv1⟩ :=
          dfsCD_complete tasks si hIter (tasks.length + 1) k [] st
            (hks k (List.mem_cons_self _ _)) hs hfuel hcyc1
        have hcycs2 : (rest.foldl (fun st n => if n ∈ st.visited then st
            else dfsCD tasks si (tasks.length + 1) n [] st)
            (dfsCD tasks si (tasks.length + 1) k [] st)).cycles
            = (dfsCD tasks si (tasks.length + 1) k [] st).cycles := by
          rw [hfc, hfc0]; simp
        obtain ⟨hinv2, hrest⟩ := ihk _ (fun x hx => hks x (List.mem_cons_of_mem _ hx))
          hinv1 hcycs2
        refine ⟨hinv2, ?_⟩
        intro x hx
        rcases List.mem_cons.mp hx with rfl | hx
        · rw [hfv]
          exact List.mem_append_left _ hkvis
        · exact hrest x hx
  have hstart : DInv tasks [] ⟨[], []⟩ :=
    ⟨by simp, by simp, by simp, [], by simp, by simp, by intro i hi; simp at hi⟩
  obtain ⟨⟨_, _, _, L, hLnd, hLmem, hLpc⟩, hall⟩ :=
    aux (dictKeys tasks) ⟨[], []⟩ (fun k hk => hk) hstart (by rw [hdet])
  apply prefixClosed_no_cycle hLpc
  intro u v huv
  obtain ⟨hu, _, _⟩ := huv
  exact (hLmem u).mpr ⟨hall u hu, by simp⟩

/-- `build_deps = task.dependencies.intersection(build_tasks)` (lines 180,
246): content of the in-build prerequisite set of a member. -/
def buildDeps (build : Build) (tasks : TaskDict) (m : String) : List String :=
  (depsOf tasks m).filter (fun d => decide (d ∈ build.tasks))

/-- The reverse-edge map `graph[current]` built on lines 183-184: the
members having `current` among their in-build prerequisites (set content;
iteration order is supplied separately). -/
def dependentsOf (build : Build) (tasks : TaskDict) (current : String) : List String :=
  build.tasks.filter (fun m => decide (current ∈ buildDeps build tasks m))

/-- Initial in-degrees `in_degree[task_name] = len(build_deps)` (line
181); the `defaultdict(int)` yields 0 elsewhere. -/
def inDeg0 (build : Build) (tasks : TaskDict) : String → Int :=
  fun m => if m ∈ build.tasks then ((buildDeps build tasks m).length : Int) else 0

/-- Loop state of `_kahn_sort`: the queue, the result accumulator and the
current in-degree table. -/
structure KahnState where
  queue : List String
  result : List String
  deg : String → Int

/-- The `for neighbor in graph[current]` body (lines 193-196): decrement
each neighbour of `current` (in set-iteration order) and collect those
reaching in-degree zero, in order, for appending to the queue. -/
def kahnProcess (build : Build) (tasks : TaskDict)
    (setIter : List String → List String) (deg : String → Int)
    (current : String) : (String → Int) × List String :=
  (setIter (dependentsOf build tasks current)).foldl
    (fun (p : (String → Int) × List String) n =>
      let d2 := Function.update p.1 n (p.1 n - 1)
      (d2, if d2 n = 0 then p.2 ++ [n] else p.2)) (deg, [])

/-- The `while queue` loop of `_kahn_sort` (lines 189-196), fuelled; the
caller supplies fuel equal to the loop measure, which never runs out. -/
def kahnLoop (build : Build) (tasks : TaskDict)
    (setIter : List String → List String) : ℕ → KahnState → List String
  | 0, st => st.result
  | fuel+1, st =>
    match st.queue with
    | [] => st.result
    | current :: rest =>
      let pr := kahnProcess build tasks setIter st.deg current
      kahnLoop build tasks setIter fuel ⟨rest ++ pr.2, st.result ++ [current], pr.1⟩

/-- The `{name: tasks[name] for name in task_names if name in tasks}`
dictionary comprehension of `_find_cycles_in_subgraph` (line 277). -/
def subgraphDict (tasks : TaskDict) (names : List String) : TaskDict :=
  names.filterMap (fun name => (dictGet tasks name).map (fun t => (name, t)))

/-- Lines 174-196 of `_kahn_sort`: build the in-degree table, seed the
queue with the zero-in-degree members in build-list order (line 186) and
run the `while queue` loop to produce `result`. -/
def kahnRun (setIter : List String → List String) (build : Build)
    (tasks : TaskDict) : List String :=
  kahnLoop build tasks setIter
    ((build.tasks.filter (fun m => decide (inDeg0 build tasks m = 0))).length +
      (build.tasks.map (fun m => (inDeg0 build tasks m).toNat)).sum)
    ⟨build.tasks.filter (fun m => decide (inDeg0 build tasks m = 0)), [],
      inDeg0 build tasks⟩

/-- `TopologyService._kahn_sort` (lines 157-208) composed with
`_find_cycles_in_subgraph` (lines 261-278): run the loop and, when the
result is shorter than the member list (line 198), re-run cycle
detection on the remainder `set(build.tasks) - set(result)` to raise
`CircularDependencyException(cycles[0])` or, failing that, a generic
`TopologicalSortException`. -/
def kahn_sort (setIter : List String → List String) (build : Build)
    (tasks : TaskDict) : Except PyErr (List String) :=
  let result := kahnRun setIter build tasks
  if result.length ≠ build.tasks.length then
    let remaining := setIter (build.tasks.filter (fun m => decide (m ∉ result)))
    match detect_cycles setIter (subgraphDict tasks remaining) with
    | c :: _ => .error (.circularDependency c)
    | [] => .error (.topologicalSort build.name
        ("Unable to sort " ++ toString (build.tasks.length - result.length) ++ " tasks"))
  else .ok result

/-- Characterisation of the neighbour-processing fold (lines 193-196)
when the neighbour list has no duplicates: every neighbour's in-degree
drops by one, and exactly the neighbours reaching zero are enqueued, in
iteration order. -/
theorem processNeighbors_spec :
    ∀ (ns : List String), ns.Nodup → ∀ (deg : String → Int) (acc : List String),
      (∀ m, (ns.foldl (fun (p : (String → Int) × List String) n =>
          let d2 := Function.update p.1 n (p.1 n - 1)
          (d2, if d2 n = 0 then p.2 ++ [n] else p.2)) (deg, acc)).1 m =
        if m ∈ ns then deg m - 1 else deg m) ∧
      (ns.foldl (fun (p : (String → Int) × List String) n =>
          let d2 := Function.update p.1 n (p.1 n - 1)
          (d2, if d2 n = 0 then p.2 ++ [n] else p.2)) (deg, acc)).2 =
        acc ++ ns.filter (fun n => decide (deg n - 1 = 0)) := by
  intro ns
  induction ns with
  | nil => intro _ deg acc; exact ⟨fun m => by simp, by simp⟩
  | cons d ds ih =>
    intro hnd deg acc
    have hdds : d ∉ ds := (List.nodup_cons.mp hnd).1
    have hnd2 : ds.Nodup := (List.nodup_cons.mp hnd).2
    simp only [List.foldl_cons]
    have hupd : Function.update deg d (deg d - 1) d = deg d - 1 := by
      simp [Function.update_same]
    obtain ⟨ihfst, ihsnd⟩ := ih hnd2 (Function.update deg d (deg d - 1))
      (if Function.update deg d (deg d - 1) d = 0 then acc ++ [d] else acc)
    constructor
    · intro m
      rw [ihfst m]
      by_cases hmds : m ∈ ds
      · have hmd : m ≠ d := fun hc => hdds (hc ▸ hmds)
        simp [hmds, hmd, Function.update_noteq hmd]
      · by_cases hmd : m = d
        · subst hmd
          simp [hmds, hupd]
        · simp [hmds, hmd, Function.update_noteq hmd]
    · rw [ihsnd]
      have hfilter : ds.filter (fun n =>
          decide (Function.update deg d (deg d - 1) n - 1 = 0)) =
          ds.filter (fun n => decide (deg n - 1 = 0)) := by
        apply List.filter_congr
        intro n hn
        have hnd3 : n ≠ d := fun hc => hdds (hc ▸ hn)
        rw [Function.update_noteq hnd3]
      rw [hfilter, hupd]
      by_cases hz : deg d - 1 = 0
      · simp [hz, List.filter_cons]
      · simp [hz, List.filter_cons]

theorem perm_of_nodup_mem_iff {l₁ l₂ : List String} (h₁ : l₁.Nodup)
    (h₂ : l₂.Nodup) (h : ∀ x, x ∈ l₁ ↔ x ∈ l₂) : l₁.Perm l₂ :=
  List.Subperm.antisymm
    (List.subperm_of_subset h₁ (fun x hx => (h x).mp hx))
    (List.subperm_of_subset h₂ (fun x hx => (h x).mpr hx))

theorem sum_map_add (l : List String) (f g : String → ℕ) :
    (l.map (fun x => f x + g x)).sum = (l.map f).sum + (l.map g).sum := by
  induction l with
  | nil => simp
  | cons a as ih => simp [ih]; omega

theorem sum_indicator_eq (l : List String) (S : List String) :
    (l.map (fun m => if m ∈ S then (1 : ℕ) else 0)).sum =
      (l.filter (fun m => decide (m ∈ S))).length := by
  induction l with
  | nil => simp
  | cons a as ih =>
    by_cases ha : a ∈ S
    · simp [List.filter_cons, ha, ih]
      omega
    · simp [List.filter_cons, ha, ih]

theorem filter_mem_length {l S : List String} (hl : l.Nodup) (hS : S.Nodup)
    (hsub : ∀ x ∈ S, x ∈ l) :
    (l.filter (fun m => decide (m ∈ S))).length = S.length := by
  have hperm : (l.filter (fun m => decide (m ∈ S))).Perm S := by
    apply perm_of_nodup_mem_iff (hl.filter _) hS
    intro x
    rw [List.mem_filter]
    simp only [decide_eq_true_eq]
    constructor
    · rintro ⟨_, hx⟩; exact hx
    · intro hx; exact ⟨hsub x hx, hx⟩
  exact hperm.length_eq

theorem length_filter_ne {l : List String} (hl : l.Nodup) (x : String) :
    (l.filter (fun d => !decide (d = x))).length + (if x ∈ l then 1 else 0)
      = l.length := by
  induction l with
  | nil => simp
  | cons a as ih =>
    have hand : a ∉ as := (List.nodup_cons.mp hl).1
    have has : as.Nodup := (List.nodup_cons.mp hl).2
    rw [List.filter_cons]
    by_cases hax : a = x
    · subst hax
      have h2 := ih has
      rw [if_neg hand] at h2
      simp only [Nat.add_zero] at h2
      have e1 : (!decide (a = a)) = false := by simp
      rw [e1]
      simp only [Bool.false_eq_true, if_false]
      rw [if_pos (List.mem_cons_self a as)]
      simp only [List.length_cons]
      omega
    · have h2 := ih has
      have e1 : (!decide (a = x)) = true := by simp [hax]
      rw [e1]
      have hx2 : (x ∈ a :: as) ↔ (x ∈ as) := by
        constructor
        · intro h
          rcases List.mem_cons.mp h with h | h
          · exact absurd h.symm hax
          · exact h
        · exact List.mem_cons_of_mem a
      by_cases hxas : x ∈ as
      · rw [if_pos hxas] at h2
        rw [if_pos (hx2.mpr hxas)]
        simp only [List.length_cons]
        simp
        omega
      · rw [if_neg hxas] at h2
        rw [if_neg (fun hc => hxas (hx2.mp hc))]
        simp only [List.length_cons]
        simp
        intro d hd hdx
        exact hxas (hdx ▸ hd)

theorem filter_not_mem_append_one {l : List String} (hl : l.Nodup)
    (R : List String) (x : String) (hx : x ∉ R) :
    (l.filter (fun d => decide (d ∉ R))).length =
      (l.filter (fun d => decide (d ∉ R ++ [x]))).length +
        (if x ∈ l then 1 else 0) := by
  have heq : l.filter (fun d => decide (d ∉ R ++ [x])) =
      (l.filter (fun d => decide (d ∉ R))).filter (fun d => !decide (d = x)) := by
    rw [List.filter_filter]
    apply List.filter_congr
    intro a _
    by_cases h1 : a ∈ R
    · simp [h1]
    · by_cases h2 : a = x
      · simp [h1, h2]
      · simp [h1, h2]
  rw [heq]
  have hmem : x ∈ l.filter (fun d => decide (d ∉ R)) ↔ x ∈ l := by
    simp [List.mem_filter, hx]
  have hkey := length_filter_ne (hl.filter (fun d => decide (d ∉ R))) x
  by_cases hxl : x ∈ l
  · rw [if_pos (hmem.mpr hxl)] at hkey
    rw [if_pos hxl]
    omega
  · rw [if_neg (fun hc => hxl (hmem.mp hc))] at hkey
    rw [if_neg hxl]
    omega

theorem IEdge_iff_buildDeps (build : Build) (tasks : TaskDict) (u v : String) :
    IEdge build tasks u v ↔ (u ∈ build.tasks ∧ v ∈ buildDeps build tasks u) := by
  unfold IEdge buildDeps
  rw [List.mem_filter]
  simp only [decide_eq_true_eq]
  tauto

/-- Loop invariant of `_kahn_sort`: no member is both emitted and queued,
the in-degree table counts exactly the not-yet-emitted in-build
prerequisites, in-degree zero coincides with emitted-or-queued, and the
emitted prefix is a valid topological order. -/
def KInv (build : Build) (tasks : TaskDict) (st : KahnState) : Prop :=
  (st.result ++ st.queue).Nodup ∧
  (∀ x ∈ st.result ++ st.queue, x ∈ build.tasks) ∧
  (∀ m ∈ build.tasks, st.deg m =
    ((buildDeps build tasks m).filter (fun d => decide (d ∉ st.result))).length) ∧
  (∀ m ∈ build.tasks, (st.deg m = 0 ↔ (m ∈ st.result ∨ m ∈ st.queue))) ∧
  PrefixClosed (IEdge build tasks) st.result

/-- Termination measure of the Kahn loop. -/
def kahnMeasure (build : Build) (st : KahnState) : ℕ :=
  st.queue.length + (build.tasks.map (fun m => (st.deg m).toNat)).sum

theorem kahnStep_inv (build : Build) (tasks : TaskDict)
    (setIter : List String → List String) (hIter : ∀ l, (setIter l).Perm l)
    (hbn : build.tasks.Nodup) (hwfd : ∀ m, (depsOf tasks m).Nodup)
    (hwfs : ∀ m, m ∉ depsOf tasks m)
    (st : KahnState) (current : String) (rest : List String)
    (hq : st.queue = current :: rest) (hKI : KInv build tasks st) :
    KInv build tasks
      ⟨rest ++ (kahnProcess build tasks setIter st.deg current).2,
        st.result ++ [current],
        (kahnProcess build tasks setIter st.deg current).1⟩ ∧
    kahnMeasure build
      ⟨rest ++ (kahnProcess build tasks setIter st.deg current).2,
        st.result ++ [current],
        (kahnProcess build tasks setIter st.deg current).1⟩ + 1 ≤
      kahnMeasure build st := by
  obtain ⟨hnd, hmem, hdeg, hzero, hpc⟩ := hKI
  have hdepnd : (dependentsOf build tasks current).Nodup := hbn.filter _
  have hnsnd : (setIter (dependentsOf build tasks current)).Nodup :=
    ((hIter _).symm).nodup hdepnd
  have hnsmem : ∀ m, m ∈ setIter (dependentsOf build tasks current) ↔
      (m ∈ build.tasks ∧ current ∈ buildDeps build tasks m) := by
    intro m
    rw [(hIter _).mem_iff]
    unfold dependentsOf
    rw [List.mem_filter]
    simp
  have hcur_bt : current ∈ build.tasks :=
    hmem current (by rw [hq]; exact List.mem_append_right _ (List.mem_cons_self _ _))
  have hnd2 : (st.result ++ (current :: rest)).Nodup := by rw [← hq]; exact hnd
  have hcurR : current ∉ st.result := by
    rcases List.nodup_append.mp hnd2 with ⟨_, _, hdisj⟩
    intro hc
    exact hdisj hc (List.mem_cons_self _ _)
  have hcur0 : st.deg current = 0 :=
    (hzero current hcur_bt).mpr (Or.inr (by rw [hq]; exact List.mem_cons_self _ _))
  have hzero_sub : ∀ m ∈ build.tasks, st.deg m = 0 →
      ∀ d ∈ buildDeps build tasks m, d ∈ st.result := by
    intro m hmbt h0 d hd
    have h := hdeg m hmbt
    rw [h0] at h
    have hlen : ((buildDeps build tasks m).filter
        (fun d => decide (d ∉ st.result))).length = 0 := by
      omega
    have hnil := List.length_eq_zero.mp hlen
    by_contra hdr
    have hdmem : d ∈ (buildDeps build tasks m).filter
        (fun d => decide (d ∉ st.result)) :=
      List.mem_filter.mpr ⟨hd, by simp [hdr]⟩
    rw [hnil] at hdmem
    simp at hdmem
  have hsub : ∀ d ∈ buildDeps build tasks current, d ∈ st.result :=
    hzero_sub current hcur_bt hcur0
  have hns_ne : ∀ m ∈ setIter (dependentsOf build tasks current), st.deg m ≠ 0 := by
    intro m hm h0
    obtain ⟨hmbt, hmc⟩ := (hnsmem m).mp hm
    exact hcurR (hzero_sub m hmbt h0 current hmc)
  have hcur_ns : current ∉ setIter (dependentsOf build tasks current) := by
    intro hc
    obtain ⟨_, hcc⟩ := (hnsmem current).mp hc
    unfold buildDeps at hcc
    rw [List.mem_filter] at hcc
    exact hwfs current hcc.1
  obtain ⟨hfst, hsnd⟩ := processNeighbors_spec
    (setIter (dependentsOf build tasks current)) hnsnd st.deg []
  have hfst2 : ∀ m, (kahnProcess build tasks setIter st.deg current).1 m =
      if m ∈ setIter (dependentsOf build tasks current) then st.deg m - 1
      else st.deg m := by
    unfold kahnProcess
    exact hfst
  have hsnd2 : (kahnProcess build tasks setIter st.deg current).2 =
      (setIter (dependentsOf build tasks current)).filter
        (fun n => decide (st.deg n - 1 = 0)) := by
    unfold kahnProcess
    rw [hsnd]
    simp
  have henq_mem : ∀ m ∈ (kahnProcess build tasks setIter st.deg current).2,
      m ∈ setIter (dependentsOf build tasks current) ∧ st.deg m = 1 := by
    intro m hm
    rw [hsnd2, List.mem_filter] at hm
    obtain ⟨h1, h2⟩ := hm
    simp only [decide_eq_true_eq] at h2
    exact ⟨h1, by omega⟩
  have henq_nodup : (kahnProcess build tasks setIter st.deg current).2.Nodup := by
    rw [hsnd2]
    exact hnsnd.filter _
  have henq_fresh : ∀ m ∈ (kahnProcess build tasks setIter st.deg current).2,
      m ∉ st.result ∧ m ∉ st.queue := by
    intro m hm
    obtain ⟨hmns, hm1⟩ := henq_mem m hm
    have hmbt := ((hnsmem m).mp hmns).1
    have hiff := hzero m hmbt
    have hne : st.deg m ≠ 0 := by omega
    constructor
    · intro hc; exact hne (hiff.mpr (Or.inl hc))
    · intro hc; exact hne (hiff.mpr (Or.inr hc))
  have henq_bt : ∀ m ∈ (kahnProcess build tasks setIter st.deg current).2,
      m ∈ build.tasks := by
    intro m hm
    exact ((hnsmem m).mp (henq_mem m hm).1).1
  constructor
  · refine ⟨?_, ?_, ?_, ?_, ?_⟩
    · -- nodup of result' ++ queue'
      show ((st.result ++ [current]) ++
        (rest ++ (kahnProcess build tasks setIter st.deg current).2)).Nodup
      rw [List.append_assoc, List.singleton_append]
      rw [List.nodup_middle]
      rw [List.nodup_cons]
      have hmid := List.nodup_middle.mp hnd2
      rw [List.nodup_cons] at hmid
      obtain ⟨hcur_nr, hrr_nd⟩ := hmid
      constructor
      · intro hc
        rcases List.mem_append.mp hc with hc | hc
        · exact hcur_nr (List.mem_append_left _ hc)
        · rcases List.mem_append.mp hc with hc | hc
          · exact hcur_nr (List.mem_append_right _ hc)
          · exact (henq_fresh current hc).2 (by rw [hq]; exact List.mem_cons_self _ _)
      · rw [← List.append_assoc]
        rw [List.nodup_append]
        refine ⟨hrr_nd, henq_nodup, ?_⟩
        intro x hx hx2
        obtain ⟨hxr, hxq⟩ := henq_fresh x hx2
        rcases List.mem_append.mp hx with hx | hx
        · exact hxr hx
        · exact hxq (by rw [hq]; exact List.mem_cons_of_mem _ hx)
    · -- membership in the build
      intro x hx
      rcases List.mem_append.mp hx with hx | hx
      · rcases List.mem_append.mp hx with hx | hx
        · exact hmem x (List.mem_append_left _ hx)
        · simp at hx; subst hx; exact hcur_bt
      · rcases List.mem_append.mp hx with hx | hx
        · exact hmem x (by rw [hq]; exact List.mem_append_right _ (List.mem_cons_of_mem _ hx))
        · exact henq_bt x hx
    · -- in-degree characterisation
      dsimp only
      intro m hmbt
      rw [hfst2 m]
      have hbdnd : (buildDeps build tasks m).Nodup := (hwfd m).filter _
      have hkey := filter_not_mem_append_one hbdnd st.result current hcurR
      by_cases hmns : m ∈ setIter (dependentsOf build tasks current)
      · rw [if_pos hmns]
        have hc : current ∈ buildDeps build tasks m := ((hnsmem m).mp hmns).2
        rw [hdeg m hmbt]
        rw [if_pos hc] at hkey
        omega
      · rw [if_neg hmns]
        have hc : current ∉ buildDeps build tasks m := by
          intro hcc
          exact hmns ((hnsmem m).mpr ⟨hmbt, hcc⟩)
        rw [hdeg m hmbt]
        rw [if_neg hc] at hkey
        omega
    · -- zero-iff
      dsimp only
      intro m hmbt
      rw [hfst2 m]
      constructor
      · intro h0
        by_cases hmns : m ∈ setIter (dependentsOf build tasks current)
        · rw [if_pos hmns] at h0
          have hm1 : st.deg m = 1 := by omega
          have hme : m ∈ (kahnProcess build tasks setIter st.deg current).2 := by
            rw [hsnd2]
            exact List.mem_filter.mpr ⟨hmns, by simp [hm1]⟩
          exact Or.inr (List.mem_append_right rest hme)
        · rw [if_neg hmns] at h0
          rcases (hzero m hmbt).mp h0 with hR | hQ
          · exact Or.inl (List.mem_append_left _ hR)
          · rw [hq] at hQ
            rcases List.mem_cons.mp hQ with rfl | hrest
            · exact Or.inl (List.mem_append_right _ (by simp))
            · exact Or.inr (List.mem_append_left _ hrest)
      · intro hor
        rcases hor with hR2 | hQ2
        · rcases List.mem_append.mp hR2 with hR | hcur
          · have h0 := (hzero m hmbt).mpr (Or.inl hR)
            rw [if_neg (fun hc => hns_ne m hc h0)]
            exact h0
          · simp at hcur
            subst hcur
            rw [if_neg hcur_ns]
            exact hcur0
        · rcases List.mem_append.mp hQ2 with hrest | henq2
          · have h0 := (hzero m hmbt).mpr
              (Or.inr (by rw [hq]; exact List.mem_cons_of_mem _ hrest))
            rw [if_neg (fun hc => hns_ne m hc h0)]
            exact h0
          · obtain ⟨hmns, hm1⟩ := henq_mem m henq2
            rw [if_pos hmns, hm1]
            simp
    · -- topological order of the emitted prefix
      apply prefixClosed_append_one hpc
      intro v hedge
      rw [IEdge_iff_buildDeps] at hedge
      exact hsub v hedge.2
  · -- measure strictly decreases
    unfold kahnMeasure
    dsimp only
    simp only [List.length_append]
    have hpoint : ∀ m ∈ build.tasks,
        ((kahnProcess build tasks setIter st.deg current).1 m).toNat +
          (if m ∈ (kahnProcess build tasks setIter st.deg current).2 then 1 else 0) ≤
          (st.deg m).toNat := by
      intro m hmbt
      rw [hfst2 m]
      by_cases hme : m ∈ (kahnProcess build tasks setIter st.deg current).2
      · obtain ⟨hmns, hm1⟩ := henq_mem m hme
        rw [if_pos hmns, if_pos hme, hm1]
        simp
      · rw [if_neg hme]
        by_cases hmns : m ∈ setIter (dependentsOf build tasks current)
        · rw [if_pos hmns]
          omega
        · rw [if_neg hmns]
          omega
    have hsum := List.sum_le_sum hpoint
    rw [sum_map_add build.tasks
      (fun m => ((kahnProcess build tasks setIter st.deg current).1 m).toNat)
      (fun m => if m ∈ (kahnProcess build tasks setIter st.deg current).2 then 1 else 0)]
      at hsum
    rw [sum_indicator_eq] at hsum
    rw [filter_mem_length hbn henq_nodup henq_bt] at hsum
    have hql : st.queue.length = rest.length + 1 := by rw [hq]; simp
    omega

theorem kahnFinal_of_empty (build : Build) (tasks : TaskDict) (st : KahnState)
    (hKI : KInv build tasks st) (hq : st.queue = []) :
    st.result.Nodup ∧ (∀ x ∈ st.result, x ∈ build.tasks) ∧
    PrefixClosed (IEdge build tasks) st.result ∧
    (∀ m ∈ build.tasks, m ∉ st.result →
      ∃ d ∈ buildDeps build tasks m, d ∉ st.result) := by
  obtain ⟨hnd, hmem, hdeg, hzero, hpc⟩ := hKI
  rw [hq] at hnd hmem hzero
  simp only [List.append_nil] at hnd hmem
  refine ⟨hnd, hmem, hpc, ?_⟩
  intro m hmbt hmr
  have hne : st.deg m ≠ 0 := by
    intro h0
    rcases (hzero m hmbt).mp h0 with h | h
    · exact hmr h
    · simp at h
  have h := hdeg m hmbt
  have hlen : ((buildDeps build tasks m).filter
      (fun d => decide (d ∉ st.result))).length ≠ 0 := by
    intro hc
    rw [hc] at h
    exact hne (by omega)
  have hnil : (buildDeps build tasks m).filter
      (fun d => decide (d ∉ st.result)) ≠ [] := by
    intro hc
    rw [hc] at hlen
    simp at hlen
  obtain ⟨d, hd⟩ := List.exists_mem_of_ne_nil _ hnil
  rw [List.mem_filter] at hd
  exact ⟨d, hd.1, by simpa using hd.2⟩

theorem kahnLoop_spec (build : Build) (tasks : TaskDict)
    (setIter : List String → List String) (hIter : ∀ l, (setIter l).Perm l)
    (hbn : build.tasks.Nodup) (hwfd : ∀ m, (depsOf tasks m).Nodup)
    (hwfs : ∀ m, m ∉ depsOf tasks m) :
    ∀ (fuel : ℕ) (st : KahnState), KInv build tasks st →
      kahnMeasure build st ≤ fuel →
      (kahnLoop build tasks setIter fuel st).Nodup ∧
      (∀ x ∈ kahnLoop build tasks setIter fuel st, x ∈ build.tasks) ∧
      PrefixClosed (IEdge build tasks) (kahnLoop build tasks setIter fuel st) ∧
      (∀ m ∈ build.tasks, m ∉ kahnLoop build tasks setIter fuel st →
        ∃ d ∈ buildDeps build tasks m, d ∉ kahnLoop build tasks setIter fuel st) := by
  intro fuel
  induction fuel with
  | zero =>
    intro st hKI hm
    have hq : st.queue = [] := by
      unfold kahnMeasure at hm
      exact List.length_eq_zero.mp (by omega)
    rw [kahnLoop]
    exact kahnFinal_of_empty build tasks st hKI hq
  | succ fuel ih =>
    intro st hKI hm
    rw [kahnLoop]
    cases hq : st.queue with
    | nil =>
      exact kahnFinal_of_empty build tasks st hKI hq
    | cons current rest =>
      obtain ⟨hKI2, hm2⟩ := kahnStep_inv build tasks setIter hIter hbn hwfd hwfs
        st current rest hq hKI
      exact ih _ hKI2 (by unfold kahnMeasure at hm2 hm ⊢; omega)

theorem kahn_init_inv (build : Build) (tasks : TaskDict)
    (hbn : build.tasks.Nodup) :
    KInv build tasks
      ⟨build.tasks.filter (fun m => decide (inDeg0 build tasks m = 0)), [],
        inDeg0 build tasks⟩ := by
  refine ⟨?_, ?_, ?_, ?_, ?_⟩
  · simp only [List.nil_append]
    exact hbn.filter _
  · intro x hx
    simp only [List.nil_append] at hx
    exact (List.mem_filter.mp hx).1
  · intro m hmbt
    dsimp only
    unfold inDeg0
    rw [if_pos hmbt]
    have : (buildDeps build tasks m).filter
        (fun d => decide (d ∉ ([] : List String))) = buildDeps build tasks m := by
      apply List.filter_eq_self.mpr
      intro a _
      simp
    rw [this]
  · intro m hmbt
    dsimp only
    constructor
    · intro h0
      exact Or.inr (List.mem_filter.mpr ⟨hmbt, by simp [h0]⟩)
    · rintro (h | h)
      · simp at h
      · have := (List.mem_filter.mp h).2
        simpa using this
  · intro i hi
    simp at hi

theorem dictKeys_subgraphDict (tasks : TaskDict) (names : List String)
    (h : ∀ n ∈ names, n ∈ dictKeys tasks) :
    dictKeys (subgraphDict tasks names) = names := by
  induction names with
  | nil => rfl
  | cons n ns ih =>
    unfold subgraphDict
    rcases hget : dictGet tasks n with _ | t
    · exact absurd (h n (List.mem_cons_self _ _))
        ((dictGet_eq_none_iff tasks n).mp hget)
    · simp only [List.filterMap_cons, hget, Option.map_some']
      unfold dictKeys
      simp only [List.map_cons]
      have := ih (fun x hx => h x (List.mem_cons_of_mem _ hx))
      unfold subgraphDict dictKeys at this
      rw [this]

theorem dictGet_subgraphDict_absent (tasks : TaskDict) (names : List String)
    (x : String) (hx : dictGet tasks x = none) :
    dictGet (subgraphDict tasks names) x = none := by
  induction names with
  | nil => rfl
  | cons m ms ih =>
    unfold subgraphDict
    rcases hget : dictGet tasks m with _ | t
    · simp only [List.filterMap_cons, hget, Option.map_none']
      unfold subgraphDict at ih
      exact ih
    · simp only [List.filterMap_cons, hget, Option.map_some']
      unfold dictGet
      have hmx : m ≠ x := by
        intro hc
        rw [hc, hx] at hget
        simp at hget
      rw [if_neg hmx]
      unfold subgraphDict at ih
      exact ih

theorem dictGet_subgraphDict (tasks : TaskDict) (names : List String)
    (n : String) (hn : n ∈ names) :
    dictGet (subgraphDict tasks names) n = dictGet tasks n := by
  induction names with
  | nil => simp at hn
  | cons m ms ih =>
    unfold subgraphDict
    rcases hget : dictGet tasks m with _ | t
    · simp only [List.filterMap_cons, hget, Option.map_none']
      rcases List.mem_cons.mp hn with rfl | hn2
      · rw [hget]
        exact dictGet_subgraphDict_absent tasks ms n hget
      · unfold subgraphDict at ih
        exact ih hn2
    · simp only [List.filterMap_cons, hget, Option.map_some']
      rw [dictGet_cons]
      rcases List.mem_cons.mp hn with rfl | hn2
      · rw [if_pos rfl, hget]
      · by_cases hmn : m = n
        · subst hmn
          rw [if_pos rfl, hget]
        · rw [if_neg hmn]
          unfold subgraphDict at ih
          exact ih hn2

theorem kahnRun_spec (build : Build) (tasks : TaskDict)
    (setIter : List String → List String) (hIter : ∀ l, (setIter l).Perm l)
    (hbn : build.tasks.Nodup) (hwfd : ∀ m, (depsOf tasks m).Nodup)
    (hwfs : ∀ m, m ∉ depsOf tasks m) :
    (kahnRun setIter build tasks).Nodup ∧
    (∀ x ∈ kahnRun setIter build tasks, x ∈ build.tasks) ∧
    PrefixClosed (IEdge build tasks) (kahnRun setIter build tasks) ∧
    (∀ m ∈ build.tasks, m ∉ kahnRun setIter build tasks →
      ∃ d ∈ buildDeps build tasks m, d ∉ kahnRun setIter build tasks) := by
  unfold kahnRun
  exact kahnLoop_spec build tasks setIter hIter hbn hwfd hwfs _ _
    (kahn_init_inv build tasks hbn) (le_of_eq rfl)

/-- On an acyclic induced subgraph, the Kahn run emits every member. -/
theorem kahnRun_all_of_acyclic (build : Build) (tasks : TaskDict)
    (setIter : List String → List String) (hIter : ∀ l, (setIter l).Perm l)
    (hbn : build.tasks.Nodup) (hwfd : ∀ m, (depsOf tasks m).Nodup)
    (hwfs : ∀ m, m ∉ depsOf tasks m)
    (hacyc : ¬ HasCycle (IEdge build tasks)) :
    (kahnRun setIter build tasks).Perm build.tasks := by
  obtain ⟨hnd, hsub, _, hstuck⟩ := kahnRun_spec build tasks setIter hIter hbn hwfd hwfs
  have hall : ∀ m ∈ build.tasks, m ∈ kahnRun setIter build tasks := by
    by_contra hc
    push_neg at hc
    obtain ⟨m0, hm0bt, hm0r⟩ := hc
    apply hacyc
    apply exists_cycle_of_out_edges
      (S := build.tasks.filter (fun m => decide (m ∉ kahnRun setIter build tasks)))
    · exact List.ne_nil_of_mem (List.mem_filter.mpr ⟨hm0bt, by simp [hm0r]⟩)
    · intro m hm
      rw [List.mem_filter] at hm
      obtain ⟨hmbt, hmr⟩ := hm
      simp only [decide_eq_true_eq] at hmr
      obtain ⟨d, hd1, hd2⟩ := hstuck m hmbt hmr
      have hdbt : d ∈ build.tasks := by
        unfold buildDeps at hd1
        rw [List.mem_filter] at hd1
        simpa using hd1.2
      exact ⟨d, List.mem_filter.mpr ⟨hdbt, by simp [hd2]⟩,
        (IEdge_iff_buildDeps build tasks m d).mpr ⟨hmbt, hd1⟩⟩
  exact perm_of_nodup_mem_iff hnd hbn (fun x => ⟨fun hx => hsub x hx, fun hx => hall x hx⟩)

/-- On a cyclic induced subgraph, the Kahn run is short. -/
theorem kahnRun_short_of_cycle (build : Build) (tasks : TaskDict)
    (setIter : List String → List String) (hIter : ∀ l, (setIter l).Perm l)
    (hbn : build.tasks.Nodup) (hwfd : ∀ m, (depsOf tasks m).Nodup)
    (hwfs : ∀ m, m ∉ depsOf tasks m)
    (hcyc : HasCycle (IEdge build tasks)) :
    (kahnRun setIter build tasks).length ≠ build.tasks.length := by
  obtain ⟨hnd, hsub, hpc, _⟩ := kahnRun_spec build tasks setIter hIter hbn hwfd hwfs
  intro hlen
  have hperm : (kahnRun setIter build tasks).Perm build.tasks :=
    (List.subperm_of_subset hnd hsub).perm_of_length_le (le_of_eq hlen.symm)
  apply prefixClosed_no_cycle hpc ?_ hcyc
  intro u v huv
  exact hperm.mem_iff.mpr huv.1

theorem kahn_sort_ok_of_acyclic (build : Build) (tasks : TaskDict)
    (setIter : List String → List String) (hIter : ∀ l, (setIter l).Perm l)
    (hbn : build.tasks.Nodup) (hwfd : ∀ m, (depsOf tasks m).Nodup)
    (hwfs : ∀ m, m ∉ depsOf tasks m)
    (hacyc : ¬ HasCycle (IEdge build tasks)) :
    kahn_sort setIter build tasks = .ok (kahnRun setIter build tasks) ∧
      (kahnRun setIter build tasks).Perm build.tasks := by
  have hperm := kahnRun_all_of_acyclic build tasks setIter hIter hbn hwfd hwfs hacyc
  refine ⟨?_, hperm⟩
  unfold kahn_sort
  rw [if_neg]
  intro hc
  exact hc hperm.length_eq

theorem kahn_sort_err_of_cycle (build : Build) (tasks : TaskDict)
    (setIter : List String → List String) (hIter : ∀ l, (setIter l).Perm l)
    (hbn : build.tasks.Nodup) (hwfd : ∀ m, (depsOf tasks m).Nodup)
    (hwfs : ∀ m, m ∉ depsOf tasks m)
    (hsound : ∀ m ∈ build.tasks, m ∈ dictKeys tasks)
    (hcyc : HasCycle (IEdge build tasks)) :
    ∃ c, kahn_sort setIter build tasks = .error (.circularDependency c) := by
  have hshort := kahnRun_short_of_cycle build tasks setIter hIter hbn hwfd hwfs hcyc
  obtain ⟨hnd, hsub, hpc, hstuck⟩ := kahnRun_spec build tasks setIter hIter hbn hwfd hwfs
  -- the remainder is nonempty and every remaining member keeps an
  -- unresolved in-build prerequisite inside the remainder
  have hrem_ne : build.tasks.filter
      (fun m => decide (m ∉ kahnRun setIter build tasks)) ≠ [] := by
    intro hc
    apply hshort
    have hall : ∀ m ∈ build.tasks, m ∈ kahnRun setIter build tasks := by
      intro m hm
      by_contra hmr
      have : m ∈ build.tasks.filter
          (fun m => decide (m ∉ kahnRun setIter build tasks)) :=
        List.mem_filter.mpr ⟨hm, by simp [hmr]⟩
      rw [hc] at this
      simp at this
    exact (perm_of_nodup_mem_iff hnd hbn
      (fun x => ⟨fun hx => hsub x hx, fun hx => hall x hx⟩)).length_eq
  set rem0 := build.tasks.filter
    (fun m => decide (m ∉ kahnRun setIter build tasks)) with hrem0
  have hremnd : (setIter rem0).Nodup := ((hIter rem0).symm).nodup (hbn.filter _)
  have hremmem : ∀ x, x ∈ setIter rem0 ↔
      (x ∈ build.tasks ∧ x ∉ kahnRun setIter build tasks) := by
    intro x
    rw [(hIter rem0).mem_iff, hrem0, List.mem_filter]
    simp
  have hremkeys : ∀ n ∈ setIter rem0, n ∈ dictKeys tasks := by
    intro n hn
    exact hsound n ((hremmem n).mp hn).1
  have hkeys_sub : dictKeys (subgraphDict tasks (setIter rem0)) = setIter rem0 :=
    dictKeys_subgraphDict tasks _ hremkeys
  have hsubcyc : HasCycle (UEdge (subgraphDict tasks (setIter rem0))) := by
    apply exists_cycle_of_out_edges (S := setIter rem0)
    · intro hc
      obtain ⟨x, hx⟩ := List.exists_mem_of_ne_nil rem0 hrem_ne
      have : x ∈ setIter rem0 := (hIter rem0).mem_iff.mpr hx
      rw [hc] at this
      simp at this
    · intro m hm
      obtain ⟨hmbt, hmr⟩ := (hremmem m).mp hm
      obtain ⟨d, hd1, hd2⟩ := hstuck m hmbt hmr
      have hdbt : d ∈ build.tasks := by
        unfold buildDeps at hd1
        rw [List.mem_filter] at hd1
        simpa using hd1.2
      have hddeps : d ∈ depsOf tasks m := by
        unfold buildDeps at hd1
        exact (List.mem_filter.mp hd1).1
      have hdrem : d ∈ setIter rem0 := (hremmem d).mpr ⟨hdbt, hd2⟩
      refine ⟨d, hdrem, ?_, ?_, ?_⟩
      · rw [hkeys_sub]; exact hm
      · rw [hkeys_sub]; exact hdrem
      · unfold depsOf
        rw [dictGet_subgraphDict tasks (setIter rem0) m hm]
        exact hddeps
  have hdet : detect_cycles setIter (subgraphDict tasks (setIter rem0)) ≠ [] := by
    intro hc
    exact detect_cycles_empty_acyclic _ setIter hIter hc hsubcyc
  unfold kahn_sort
  rw [if_pos hshort]
  rcases hd : detect_cycles setIter (subgraphDict tasks (setIter rem0)) with _ | ⟨c, cs⟩
  · exact absurd hd hdet
  · refine ⟨c, ?_⟩
    simp only [hrem0] at hd
    simp only [hd]

/-- Mutable state of `_dfs_sort` (topology_service.py lines 228-230):
the shared `visited` set and the post-order `result`; as in the cycle
detector, `rec_stack` always equals the current `path`. -/
structure DfsState where
  visited : List String
  result : List String
deriving DecidableEq, Repr

/-- `dfs_visit` (topology_service.py lines 232-253), fuelled: on-stack
revisits raise `CircularDependencyException` with the captured stack
suffix; otherwise the in-build prerequisites are visited recursively and
the node is appended post-order. -/
def dfsVisit (build : Build) (tasks : TaskDict)
    (setIter : List String → List String) :
    ℕ → String → List String → DfsState → Except PyErr DfsState
  | 0, _, _, st => .ok st
  | fuel+1, n, path, st =>
    if n ∈ path then
      .error (.circularDependency (path.drop (path.indexOf n) ++ [n]))
    else if n ∈ st.visited then .ok st
    else
      match (setIter (buildDeps build tasks n)).foldlM
        (fun s dep => dfsVisit build tasks setIter fuel dep (path ++ [n]) s)
        (DfsState.mk (st.visited ++ [n]) st.result) with
      | .error e => .error e
      | .ok st2 => .ok ⟨st2.visited, st2.result ++ [n]⟩

/-- `TopologyService._dfs_sort` (topology_service.py lines 210-259):
visit every unvisited member in build-list order and return
`list(reversed(result))`. -/
def dfs_sort (setIter : List String → List String) (build : Build)
    (tasks : TaskDict) : Except PyErr (List String) :=
  match build.tasks.foldlM
    (fun (st : DfsState) n => if n ∈ st.visited then .ok st
      else dfsVisit build tasks setIter (build.tasks.length + 1) n [] st)
    (DfsState.mk [] []) with
  | .error e => .error e
  | .ok st => .ok st.result.reverse

/-- Every `CircularDependencyException` raised by `dfs_visit` carries a
genuine loop of the induced subgraph. -/
theorem dfsVisit_err_sound (build : Build) (tasks : TaskDict)
    (setIter : List String → List String) (hIter : ∀ l, (setIter l).Perm l) :
    ∀ (fuel : ℕ) (n : String) (path : List String) (st : DfsState),
      List.Chain' (IEdge build tasks) path →
      (∀ lastel, path.getLast? = some lastel → IEdge build tasks lastel n) →
      n ∈ build.tasks →
      ∀ e, dfsVisit build tasks setIter fuel n path st = .error e →
        ∃ c, e = .circularDependency c ∧ IsLoop (IEdge build tasks) c := by
  intro fuel
  induction fuel with
  | zero => intro n path st _ _ _ e he; simp [dfsVisit] at he
  | succ fuel ih =>
    intro n path st hchain hcall hnbt e he
    rw [dfsVisit] at he
    by_cases hp : n ∈ path
    · simp only [if_pos hp] at he
      have he2 : e = .circularDependency (path.drop (path.indexOf n) ++ [n]) := by
        cases he
        rfl
      refine ⟨path.drop (path.indexOf n) ++ [n], he2, ?_⟩
      have hi : path.indexOf n < path.length := List.indexOf_lt_length.mpr hp
      have hdropeq : path.drop (path.indexOf n) =
          n :: path.drop (path.indexOf n + 1) := by
        have := List.drop_eq_getElem_cons hi
        rwa [List.getElem_indexOf hi] at this
      refine ⟨n, path.drop (path.indexOf n + 1) ++ [n], ?_, by simp, ?_, ?_⟩
      · rw [hdropeq]; simp
      · have hchain2 : List.Chain' (IEdge build tasks) (path.drop (path.indexOf n)) :=
          hchain.drop _
        rw [hdropeq] at hchain2
        have hlast : ∀ lastel,
            (n :: path.drop (path.indexOf n + 1)).getLast? = some lastel →
            IEdge build tasks lastel n := by
          intro lastel hl
          apply hcall
          have : path.getLast? = (path.drop (path.indexOf n)).getLast? := by
            conv_lhs => rw [← List.take_append_drop (path.indexOf n) path]
            rw [List.getLast?_append_of_ne_nil]
            rw [hdropeq]; simp
          rw [this, hdropeq]
          exact hl
        have hfull : List.Chain' (IEdge build tasks)
            ((n :: path.drop (path.indexOf n + 1)) ++ [n]) := by
          rw [List.chain'_append]
          refine ⟨hchain2, List.chain'_singleton n, ?_⟩
          intro x hx y hy
          simp at hy
          subst hy
          exact hlast x hx
        simpa [List.cons_append] using hfull
      · rw [List.getLast?_append_cons]
        rfl
    · simp only [if_neg hp] at he
      by_cases hv : n ∈ st.visited
      · simp only [if_pos hv] at he
        cases he
      · simp only [if_neg hv] at he
        have hchain2 : List.Chain' (IEdge build tasks) (path ++ [n]) := by
          rw [List.chain'_append]
          refine ⟨hchain, List.chain'_singleton n, ?_⟩
          intro x hx y hy
          simp at hy
          subst hy
          exact hcall x hx
        have hdepedge : ∀ dep ∈ setIter (buildDeps build tasks n),
            IEdge build tasks n dep := by
          intro dep hdep
          rw [(hIter _).mem_iff] at hdep
          exact (IEdge_iff_buildDeps build tasks n dep).mpr ⟨hnbt, hdep⟩
        have hcall2 : ∀ dep ∈ setIter (buildDeps build tasks n),
            ∀ lastel, (path ++ [n]).getLast? = some lastel →
              IEdge build tasks lastel dep := by
          intro dep hdep lastel hl
          rw [List.getLast?_append_cons] at hl
          simp at hl
          subst hl
          exact hdepedge dep hdep
        have hdepbt : ∀ dep ∈ setIter (buildDeps build tasks n),
            dep ∈ build.tasks := by
          intro dep hdep
          rw [(hIter _).mem_iff] at hdep
          unfold buildDeps at hdep
          rw [List.mem_filter] at hdep
          simpa using hdep.2
        have aux : ∀ (deps : List String) (s : DfsState),
            (∀ dep ∈ deps, ∀ lastel, (path ++ [n]).getLast? = some lastel →
              IEdge build tasks lastel dep) →
            (∀ dep ∈ deps, dep ∈ build.tasks) →
            ∀ e2, deps.foldlM
              (fun s dep => dfsVisit build tasks setIter fuel dep (path ++ [n]) s)
              s = .error e2 →
            ∃ c, e2 = .circularDependency c ∧ IsLoop (IEdge build tasks) c := by
          intro deps
          induction deps with
          | nil =>
            intro s _ _ e2 he2
            rw [List.foldlM_nil] at he2
            simp only [pure, Except.pure] at he2
            cases he2
          | cons d ds ihd =>
            intro s hcalls hbts e2 he2
            rw [List.foldlM_cons] at he2
            rcases hstep : dfsVisit build tasks setIter fuel d (path ++ [n]) s with e3 | s1
            · rw [hstep] at he2
              replace he2 : (Except.error e3 : Except PyErr DfsState) = .error e2 := he2
              cases he2
              exact ih d (path ++ [n]) s hchain2 (hcalls d (List.mem_cons_self _ _))
                (hbts d (List.mem_cons_self _ _)) _ hstep
            · rw [hstep] at he2
              replace he2 : ds.foldlM
                  (fun s dep => dfsVisit build tasks setIter fuel dep (path ++ [n]) s)
                  s1 = .error e2 := he2
              exact ihd s1 (fun dep hdep => hcalls dep (List.mem_cons_of_mem _ hdep))
                (fun dep hdep => hbts dep (List.mem_cons_of_mem _ hdep)) e2 he2
        rcases hfold : (setIter (buildDeps build tasks n)).foldlM
            (fun s dep => dfsVisit build tasks setIter fuel dep (path ++ [n]) s)
            (DfsState.mk (st.visited ++ [n]) st.result) with e2 | st2
        · rw [hfold] at he
          cases he
          exact aux _ _ hcall2 hdepbt _ hfold
        · rw [hfold] at he
          cases he

/-- Invariant of `dfs_visit`: visited names are exactly the stacked ones
plus the finished ones, and the finished (post-order) list is a valid
topological order of the induced subgraph. -/
def DfsInv (build : Build) (tasks : TaskDict) (path : List String)
    (st : DfsState) : Prop :=
  st.visited.Nodup ∧ (∀ x ∈ st.visited, x ∈ build.tasks) ∧
  st.visited.Perm (path ++ st.result) ∧
  PrefixClosed (IEdge build tasks) st.result

theorem perm_push (path R : List String) (n : String) :
    ((path ++ R) ++ [n]).Perm ((path ++ [n]) ++ R) := by
  rw [List.append_assoc, List.append_assoc]
  exact List.Perm.append_left path (List.perm_append_comm)

theorem dfsVisit_ok_spec (build : Build) (tasks : TaskDict)
    (setIter : List String → List String) (hIter : ∀ l, (setIter l).Perm l) :
    ∀ (fuel : ℕ) (n : String) (path : List String) (st : DfsState),
      n ∈ build.tasks →
      DfsInv build tasks path st →
      unvisitedLen build.tasks st.visited + 1 ≤ fuel →
      ∀ st2, dfsVisit build tasks setIter fuel n path st = .ok st2 →
        (∃ ext, st2.visited = st.visited ++ ext) ∧ n ∈ st2.visited ∧ n ∉ path ∧
        DfsInv build tasks path st2 := by
  intro fuel
  induction fuel with
  | zero => intro n path st _ _ hfuel; omega
  | succ fuel ih =>
    intro n path st hnbt hinv hfuel st2 hok
    rw [dfsVisit] at hok
    by_cases hp : n ∈ path
    · simp only [if_pos hp] at hok
      cases hok
    · simp only [if_neg hp] at hok
      by_cases hv : n ∈ st.visited
      · simp only [if_pos hv] at hok
        cases hok
        exact ⟨⟨[], by simp⟩, hv, hp, hinv⟩
      · simp only [if_neg hv] at hok
        obtain ⟨hnd, hbt, hperm, hpc⟩ := hinv
        have hinv1 : DfsInv build tasks (path ++ [n])
            ⟨st.visited ++ [n], st.result⟩ := by
          refine ⟨?_, ?_, ?_, hpc⟩
          · rw [List.nodup_append]
            exact ⟨hnd, List.nodup_singleton n, fun x hx hx2 => by
              simp at hx2
              subst hx2
              exact hv hx⟩
          · intro x hx
            rcases List.mem_append.mp hx with hx | hx
            · exact hbt x hx
            · simp at hx; subst hx; exact hnbt
          · exact (hperm.append_right [n]).trans (perm_push path st.result n)
        have hfuel1 : unvisitedLen build.tasks (st.visited ++ [n]) + 1 ≤ fuel := by
          have := unvisitedLen_lt build.tasks st.visited n hnbt hv
          omega
        have hdepbt : ∀ dep ∈ setIter (buildDeps build tasks n),
            dep ∈ build.tasks := by
          intro dep hdep
          rw [(hIter _).mem_iff] at hdep
          unfold buildDeps at hdep
          rw [List.mem_filter] at hdep
          simpa using hdep.2
        have aux : ∀ (deps : List String) (s : DfsState),
            (∀ dep ∈ deps, dep ∈ build.tasks) →
            DfsInv build tasks (path ++ [n]) s →
            unvisitedLen build.tasks s.visited + 1 ≤ fuel →
            ∀ sf, deps.foldlM
              (fun s dep => dfsVisit build tasks setIter fuel dep (path ++ [n]) s)
              s = .ok sf →
            (∃ ext, sf.visited = s.visited ++ ext) ∧
            DfsInv build tasks (path ++ [n]) sf ∧
            (∀ dep ∈ deps, dep ∈ sf.visited ∧ dep ∉ path ++ [n]) := by
          intro deps
          induction deps with
          | nil =>
            intro s _ hs _ sf hsf
            rw [List.foldlM_nil] at hsf
            replace hsf : (Except.ok s : Except PyErr DfsState) = .ok sf := hsf
            cases hsf
            exact ⟨⟨[], by simp⟩, hs, by simp⟩
          | cons d ds ihd =>
            intro s hbts hs hsfuel sf hsf
            rw [List.foldlM_cons] at hsf
            rcases hstep : dfsVisit build tasks setIter fuel d (path ++ [n]) s
              with e3 | s1
            · rw [hstep] at hsf
              replace hsf : (Except.error e3 : Except PyErr DfsState) = .ok sf := hsf
              cases hsf
            · rw [hstep] at hsf
              replace hsf : ds.foldlM
                  (fun s dep => dfsVisit build tasks setIter fuel dep (path ++ [n]) s)
                  s1 = .ok sf := hsf
              obtain ⟨⟨ext1, hext1⟩, hdvis, hdnp, hinvs1⟩ :=
                ih d (path ++ [n]) s (hbts d (List.mem_cons_self _ _)) hs hsfuel s1 hstep
              have hsfuel1 : unvisitedLen build.tasks s1.visited + 1 ≤ fuel := by
                have := unvisitedLen_mono build.tasks s.visited ext1
                rw [← hext1] at this
                omega
              obtain ⟨⟨ext2, hext2⟩, hinvf, hrest⟩ :=
                ihd s1 (fun dep hdep => hbts dep (List.mem_cons_of_mem _ hdep))
                  hinvs1 hsfuel1 sf hsf
              refine ⟨⟨ext1 ++ ext2, by rw [hext2, hext1, List.append_assoc]⟩,
                hinvf, ?_⟩
              intro dep hdep
              rcases List.mem_cons.mp hdep with rfl | hdep2
              · exact ⟨by rw [hext2]; exact List.mem_append_left _ hdvis, hdnp⟩
              · exact hrest dep hdep2
        rcases hfold : (setIter (buildDeps build tasks n)).foldlM
            (fun s dep => dfsVisit build tasks setIter fuel dep (path ++ [n]) s)
            (DfsState.mk (st.visited ++ [n]) st.result) with e2 | stf
        · rw [hfold] at hok
          cases hok
        · rw [hfold] at hok
          replace hok : (Except.ok (DfsState.mk stf.visited (stf.result ++ [n])) :
            Except PyErr DfsState) = .ok st2 := hok
          cases hok
          obtain ⟨⟨ext, hext⟩, ⟨hndf, hbtf, hpermf, hpcf⟩, hdeps⟩ :=
            aux _ _ hdepbt hinv1 hfuel1 stf hfold
          have hnvis : n ∈ stf.visited := by
            rw [hext]
            exact List.mem_append_left _ (List.mem_append_right _ (by simp))
          refine ⟨⟨[n] ++ ext, by rw [hext]; simp⟩, hnvis, hp, hndf, hbtf, ?_, ?_⟩
          · -- visited ~ path ++ (result ++ [n])
            dsimp only
            have h1 : stf.visited.Perm ((path ++ [n]) ++ stf.result) := hpermf
            have h2 : ((path ++ [n]) ++ stf.result).Perm (path ++ (stf.result ++ [n])) := by
              have h3 := (perm_push path stf.result n).symm
              rwa [List.append_assoc path stf.result [n]] at h3
            exact h1.trans h2
          · -- topological order extended by `n`
            dsimp only
            apply prefixClosed_append_one hpcf
            intro v hedge
            have hvbd : v ∈ buildDeps build tasks n :=
              ((IEdge_iff_buildDeps build tasks n v).mp hedge).2
            have hvs : v ∈ setIter (buildDeps build tasks n) :=
              (hIter _).mem_iff.mpr hvbd
            obtain ⟨hvvis, hvnp⟩ := hdeps v hvs
            rcases List.mem_append.mp (hpermf.mem_iff.mp hvvis) with hvp | hvr
            · exact absurd hvp hvnp
            · exact hvr

theorem dfsTop_spec (build : Build) (tasks : TaskDict)
    (setIter : List String → List String) (hIter : ∀ l, (setIter l).Perm l) :
    ∀ (ms : List String) (st : DfsState),
      (∀ m ∈ ms, m ∈ build.tasks) →
      DfsInv build tasks [] st →
      (∀ e, ms.foldlM (fun (st : DfsState) n => if n ∈ st.visited then .ok st
          else dfsVisit build tasks setIter (build.tasks.length + 1) n [] st) st
          = .error e →
        ∃ c, e = .circularDependency c ∧ IsLoop (IEdge build tasks) c) ∧
      (∀ stf, ms.foldlM (fun (st : DfsState) n => if n ∈ st.visited then .ok st
          else dfsVisit build tasks setIter (build.tasks.length + 1) n [] st) st
          = .ok stf →
        (∃ ext, stf.visited = st.visited ++ ext) ∧ DfsInv build tasks [] stf ∧
        ∀ m ∈ ms, m ∈ stf.visited) := by
  intro ms
  induction ms with
  | nil =>
    intro st _ hs
    constructor
    · intro e he
      rw [List.foldlM_nil] at he
      replace he : (Except.ok st : Except PyErr DfsState) = .error e := he
      cases he
    · intro stf hok
      rw [List.foldlM_nil] at hok
      replace hok : (Except.ok st : Except PyErr DfsState) = .ok stf := hok
      cases hok
      exact ⟨⟨[], by simp⟩, hs, by simp⟩
  | cons m msr ih =>
    intro st hms hs
    have hfuel : unvisitedLen build.tasks st.visited + 1 ≤ build.tasks.length + 1 := by
      have := unvisitedLen_le build.tasks st.visited
      omega
    by_cases hv : m ∈ st.visited
    · have hred : ∀ (z : Except PyErr DfsState),
          (m :: msr).foldlM (fun (st : DfsState) n => if n ∈ st.visited then .ok st
            else dfsVisit build tasks setIter (build.tasks.length + 1) n [] st) st = z ↔
          msr.foldlM (fun (st : DfsState) n => if n ∈ st.visited then .ok st
            else dfsVisit build tasks setIter (build.tasks.length + 1) n [] st) st = z := by
        intro z
        rw [List.foldlM_cons, if_pos hv]
        constructor
        · intro h; exact h
        · intro h; exact h
      obtain ⟨iherr, ihok⟩ := ih st (fun x hx => hms x (List.mem_cons_of_mem _ hx)) hs
      constructor
      · intro e he
        exact iherr e ((hred _).mp he)
      · intro stf hok
        obtain ⟨⟨ext, hext⟩, hinvf, hrest⟩ := ihok stf ((hred _).mp hok)
        refine ⟨⟨ext, hext⟩, hinvf, ?_⟩
        intro x hx
        rcases List.mem_cons.mp hx with rfl | hx2
        · rw [hext]; exact List.mem_append_left _ hv
        · exact hrest x hx2
    · have hmbt : m ∈ build.tasks := hms m (List.mem_cons_self _ _)
      constructor
      · intro e he
        rw [List.foldlM_cons, if_neg hv] at he
        rcases hstep : dfsVisit build tasks setIter (build.tasks.length + 1) m [] st
          with e1 | s1
        · rw [hstep] at he
          replace he : (Except.error e1 : Except PyErr DfsState) = .error e := he
          cases he
          exact dfsVisit_err_sound build tasks setIter hIter _ m [] st
            (by simp) (by simp) hmbt _ hstep
        · rw [hstep] at he
          replace he : msr.foldlM (fun (st : DfsState) n => if n ∈ st.visited then .ok st
            else dfsVisit build tasks setIter (build.tasks.length + 1) n [] st) s1
            = .error e := he
          obtain ⟨_, _, _, hinv1⟩ :=
            dfsVisit_ok_spec build tasks setIter hIter _ m [] st hmbt hs hfuel s1 hstep
          exact (ih s1 (fun x hx => hms x (List.mem_cons_of_mem _ hx)) hinv1).1 e he
      · intro stf hok
        rw [List.foldlM_cons, if_neg hv] at hok
        rcases hstep : dfsVisit build tasks setIter (build.tasks.length + 1) m [] st
          with e1 | s1
        · rw [hstep] at hok
          replace hok : (Except.error e1 : Except PyErr DfsState) = .ok stf := hok
          cases hok
        · rw [hstep] at hok
          replace hok : msr.foldlM (fun (st : DfsState) n => if n ∈ st.visited then .ok st
            else dfsVisit build tasks setIter (build.tasks.length + 1) n [] st) s1
            = .ok stf := hok
          obtain ⟨⟨ext1, hext1⟩, hmvis, _, hinv1⟩ :=
            dfsVisit_ok_spec build tasks setIter hIter _ m [] st hmbt hs hfuel s1 hstep
          obtain ⟨⟨ext2, hext2⟩, hinvf, hrest⟩ :=
            (ih s1 (fun x hx => hms x (List.mem_cons_of_mem _ hx)) hinv1).2 stf hok
          refine ⟨⟨ext1 ++ ext2, by rw [hext2, hext1, List.append_assoc]⟩, hinvf, ?_⟩
          intro x hx
          rcases List.mem_cons.mp hx with rfl | hx2
          · rw [hext2]; exact List.mem_append_left _ hmvis
          · exact hrest x hx2

theorem dfs_sort_ok_of_acyclic (build : Build) (tasks : TaskDict)
    (setIter : List String → List String) (hIter : ∀ l, (setIter l).Perm l)
    (hbn : build.tasks.Nodup) (hacyc : ¬ HasCycle (IEdge build tasks)) :
    ∃ r, dfs_sort setIter build tasks = .ok r ∧ r.Perm build.tasks := by
  have hstart : DfsInv build tasks [] ⟨[], []⟩ :=
    ⟨by simp, by simp, by simp, by intro i hi; simp at hi⟩
  obtain ⟨herr, hok⟩ := dfsTop_spec build tasks setIter hIter build.tasks ⟨[], []⟩
    (fun x hx => hx) hstart
  rcases hf : build.tasks.foldlM
      (fun (st : DfsState) n => if n ∈ st.visited then .ok st
        else dfsVisit build tasks setIter (build.tasks.length + 1) n [] st)
      (DfsState.mk [] []) with e | stf
  · obtain ⟨c, _, hloop⟩ := herr e hf
    exact absurd (isLoop_hasCycle hloop) hacyc
  · obtain ⟨_, ⟨hndf, hbtf, hpermf, _⟩, hall⟩ := hok stf hf
    have hvperm : stf.visited.Perm build.tasks :=
      perm_of_nodup_mem_iff hndf hbn (fun x => ⟨fun hx => hbtf x hx, fun hx => hall x hx⟩)
    have hrperm : stf.result.reverse.Perm build.tasks := by
      have h1 : stf.result.reverse.Perm stf.result := List.reverse_perm _
      have h2 : stf.result.Perm stf.visited := by
        have := hpermf.symm
        simpa using this
      exact (h1.trans h2).trans hvperm
    refine ⟨stf.result.reverse, ?_, hrperm⟩
    unfold dfs_sort
    rw [hf]

theorem dfs_sort_err_of_cycle (build : Build) (tasks : TaskDict)
    (setIter : List String → List String) (hIter : ∀ l, (setIter l).Perm l)
    (hbn : build.tasks.Nodup) (hcyc : HasCycle (IEdge build tasks)) :
    ∃ c, dfs_sort setIter build tasks = .error (.circularDependency c) := by
  have hstart : DfsInv build tasks [] ⟨[], []⟩ :=
    ⟨by simp, by simp, by simp, by intro i hi; simp at hi⟩
  obtain ⟨herr, hok⟩ := dfsTop_spec build tasks setIter hIter build.tasks ⟨[], []⟩
    (fun x hx => hx) hstart
  rcases hf : build.tasks.foldlM
      (fun (st : DfsState) n => if n ∈ st.visited then .ok st
        else dfsVisit build tasks setIter (build.tasks.length + 1) n [] st)
      (DfsState.mk [] []) with e | stf
  · obtain ⟨c, rfl, _⟩ := herr e hf
    refine ⟨c, ?_⟩
    unfold dfs_sort
    rw [hf]
  · exfalso
    obtain ⟨_, ⟨hndf, hbtf, hpermf, hpcf⟩, hall⟩ := hok stf hf
    apply prefixClosed_no_cycle hpcf ?_ hcyc
    intro u v huv
    have hu : u ∈ stf.visited := hall u huv.1
    have := hpermf.mem_iff.mp hu
    simpa using this

/-- Python `', '.join(...)`. -/
def joinComma : List String → String
  | [] => ""
  | [x] => x
  | x :: rest => x ++ ", " ++ joinComma rest

/-- Python `' -> '.join(...)`. -/
def joinArrow : List String → String
  | [] => ""
  | [x] => x
  | x :: rest => x ++ " -> " ++ joinArrow rest

/-- `str(e)` for the modelled exceptions: the `message` built by each
constructor in `exceptions.py`.  (`CircularDependencyException` renders
`cycle + [cycle[0]]`; the cycles produced by the engine are nonempty.) -/
def errMessage : PyErr → String
  | .valueError msg => msg
  | .typeError msg => msg
  | .taskNotFound msg => msg
  | .buildNotFound msg => msg
  | .circularDependency cycle =>
      "Circular dependency detected: " ++ joinArrow (cycle ++ [cycle.headD ""])
  | .topologicalSort buildName reason =>
      "Failed to sort build '" ++ buildName ++ "': " ++ reason

/-- `TopologyService.sort_tasks` (topology_service.py lines 25-80):
default the algorithm to Kahn, validate references (raising
`TaskNotFoundException` on any missing name), run the selected strategy,
and wrap the result in a `SortedTaskList` with `has_cycles=False`; inside
the `try`, `CircularDependencyException` is re-raised unchanged and any
other exception (including a `ValueError` from the `SortedTaskList`
constructor) becomes a `TopologicalSortException`.  `elapsedMs` stands
for the measured `perf_counter` delta (non-negative in real runs). -/
def sort_tasks (setIter : List String → List String) (build : Build)
    (tasks : TaskDict) (algorithm : Option SortAlgorithm) (elapsedMs : Int) :
    Except PyErr SortedTaskList :=
  let algorithm := algorithm.getD .kahn
  let missing := validate_dependencies build tasks
  if missing ≠ [] then
    .error (.taskNotFound ("Missing tasks: " ++ joinComma missing))
  else
    match (match algorithm with
      | .kahn => kahn_sort setIter build tasks
      | .dfs => dfs_sort setIter build tasks) with
    | .ok sorted =>
      match mkSortedTaskList build.name sorted algorithm.value elapsedMs false none with
      | .ok r => .ok r
      | .error e => .error (.topologicalSort build.name
          ("Sorting failed with " ++ algorithm.value ++ ": " ++ errMessage e))
    | .error (.circularDependency c) => .error (.circularDependency c)
    | .error e => .error (.topologicalSort build.name
        ("Sorting failed with " ++ algorithm.value ++ ": " ++ errMessage e))

/-- `BuildService.get_topological_sort` (build_service.py lines 383-410):
load the build, run `detect_cycles` over the *full* task universe and, if
any cycle exists anywhere, raise.  The code passes the f-string
`"Circular dependencies detected: ..."` to
`CircularDependencyException`, whose constructor immediately evaluates
`cycle + [cycle[0]]` on that string and so raises `TypeError: can only
concatenate str (not "list") to str` instead. -/
def get_topological_sort (setIter : List String → List String)
    (build_name : String) (buildOpt : Option Build) (allTasks : TaskDict)
    (elapsedMs : Int) : Except PyErr SortedTaskList :=
  match buildOpt with
  | none => .error (.buildNotFound ("Build '" ++ build_name ++ "' not found"))
  | some build =>
    match detect_cycles setIter allTasks with
    | [] => sort_tasks setIter build allTasks none elapsedMs
    | _ :: _ => .error (.typeError ("can only concatenate str (not \"list\") to str"))

/-- `BuildService.create_build` (build_service.py lines 98-125): `tasks`
is the repository answer for the build's member names; missing members
raise `TaskNotFoundException`, then `detect_cycles` over those member
records raises `CircularDependencyException(cycles[0])`, then
`validate_dependencies` raises on missing prerequisites. -/
def create_build (setIter : List String → List String) (build : Build)
    (tasks : TaskDict) : Except PyErr Build :=
  let missing_tasks := build.tasks.filter (fun m => decide (m ∉ dictKeys tasks))
  if missing_tasks ≠ [] then
    .error (.taskNotFound ("Missing tasks: " ++ joinComma (setIter missing_tasks)))
  else
    match detect_cycles setIter tasks with
    | c :: _ => .error (.circularDependency c)
    | [] =>
      let missing_deps := validate_dependencies build tasks
      if missing_deps ≠ [] then
        .error (.taskNotFound ("Missing dependencies: " ++ joinComma missing_deps))
      else .ok build

/-- Outcome of one backing-store (Redis) call: the call either raises or
returns a value. -/
inductive RedisCall (α : Type) where
  | raises
  | returns (a : α)

/-- A JSON dictionary as read back by `CacheService.get_sorted_tasks`:
each expected key is present or absent. -/
structure CachedEntry where
  build_name : Option String
  tasks : Option (List String)
  algorithm_used : Option String
  execution_time_ms : Option Int
  has_cycles : Option Bool
  cycle_details : Option (List String)
deriving DecidableEq, Repr

/-- A value returned by `RedisClient.get`: either a parsed JSON
dictionary or the raw (unparseable) string. -/
inductive PyVal where
  | vstr (s : String)
  | ventry (e : CachedEntry)
deriving DecidableEq, Repr

/-- `RedisClient.get` (redis_client.py lines 54-71): on any exception from
the store the handler returns `value if 'value' in locals() else None`,
i.e. `None` when the `get` call itself raised; a falsy stored value
yields `None`; a `json.loads` failure returns the raw string. -/
def redisGet (loads : String → Option PyVal) (call : RedisCall (Option String)) :
    Option PyVal :=
  match call with
  | .raises => none
  | .returns none => none
  | .returns (some s) =>
    if s = "" then none
    else match loads s with
      | some v => some v
      | none => some (.vstr s)

/-- `RedisClient.set` (redis_client.py lines 73-101): any exception yields
`False`. -/
def redisSet (call : RedisCall Bool) : Bool :=
  match call with
  | .raises => false
  | .returns b => b

/-- `CacheService.get_sorted_tasks` (cache_service.py lines 74-110): a raw
string triggers `TypeError` on subscripting, a missing key triggers
`KeyError`; both are caught (the entry is deleted) and `None` is
returned.  A `ValueError` from the `SortedTaskList` constructor is *not*
in the `except (KeyError, TypeError)` clause and propagates. -/
def get_sorted_tasks_cache (loads : String → Option PyVal)
    (getCall : RedisCall (Option String)) :
    Except PyErr (Option SortedTaskList) :=
  match redisGet loads getCall with
  | none => .ok none
  | some (.vstr _) => .ok none
  | some (.ventry e) =>
    match e.build_name, e.tasks, e.algorithm_used, e.execution_time_ms, e.has_cycles with
    | some bn, some ts, some au, some ms, some hc =>
      (match mkSortedTaskList bn ts au ms hc e.cycle_details with
       | .ok r => .ok (some r)
       | .error ve => .error ve)
    | _, _, _, _, _ => .ok none

/-- `CacheService.cache_sorted_tasks` (cache_service.py lines 112-147):
serialise the result and return whatever `RedisClient.set` returns. -/
def cache_sorted_tasks (setCall : RedisCall Bool) : Bool := redisSet setCall

/-- `BuildService.get_sorted_tasks` (build_service.py lines 173-221): load
the build, check member presence, default the algorithm, consult the
cache (when enabled), recompute via the Topology Engine on a miss, then
populate the cache (ignoring its boolean answer). -/
def bs_get_sorted_tasks (setIter : List String → List String)
    (build_name : String) (buildOpt : Option Build) (tasks : TaskDict)
    (algorithm : Option SortAlgorithm) (use_cache : Bool)
    (loads : String → Option PyVal) (getCall : RedisCall (Option String))
    (setCall : RedisCall Bool) (elapsedMs : Int) : Except PyErr SortedTaskList :=
  match buildOpt with
  | none => .error (.buildNotFound ("Build '" ++ build_name ++ "' not found"))
  | some build =>
    let missing := build.tasks.filter (fun m => decide (m ∉ dictKeys tasks))
    if missing ≠ [] then
      .error (.taskNotFound ("Missing tasks: " ++ joinComma missing))
    else
      let algorithm := algorithm.getD .kahn
      if use_cache then
        match get_sorted_tasks_cache loads getCall with
        | .error e => .error e
        | .ok (some cached) => .ok cached
        | .ok none =>
          match sort_tasks setIter build tasks (some algorithm) elapsedMs with
          | .error e => .error e
          | .ok sorted =>
            let _ := cache_sorted_tasks setCall
            .ok sorted
      else
        sort_tasks setIter build tasks (some algorithm) elapsedMs

/-- Well-formedness of the inputs as Python produces them: a validly
constructed `Build` (non-empty name, duplicate-free members), validly
constructed `Task` values keyed by their names (duplicate-free
prerequisite sets, no self-dependency), and referential soundness of the
build against the universe. -/
def WellFormed (build : Build) (tasks : TaskDict) : Prop :=
  build.name ≠ "" ∧ build.tasks.Nodup ∧
  (∀ p ∈ tasks, (Prod.snd p).dependencies.Nodup ∧
    Prod.fst p ∉ (Prod.snd p).dependencies) ∧
  ReferentiallySound build tasks

theorem WellFormed.depsNodup {build : Build} {tasks : TaskDict}
    (h : WellFormed build tasks) : ∀ m, (depsOf tasks m).Nodup := by
  intro m
  unfold depsOf
  rcases hget : dictGet tasks m with _ | t
  · simp
  · exact (h.2.2.1 (m, t) (dictGet_mem tasks m t hget)).1

theorem WellFormed.noSelfDep {build : Build} {tasks : TaskDict}
    (h : WellFormed build tasks) : ∀ m, m ∉ depsOf tasks m := by
  intro m
  unfold depsOf
  rcases hget : dictGet tasks m with _ | t
  · simp
  · exact (h.2.2.1 (m, t) (dictGet_mem tasks m t hget)).2

theorem sort_tasks_ok_build (setIter : List String → List String)
    (build : Build) (tasks : TaskDict) (aOpt : Option SortAlgorithm)
    (elapsedMs : Int) (sorted : List String)
    (hval : validate_dependencies build tasks = [])
    (hname : build.name ≠ "") (hel : 0 ≤ elapsedMs)
    (hinner : (match aOpt.getD .kahn with
      | SortAlgorithm.kahn => kahn_sort setIter build tasks
      | SortAlgorithm.dfs => dfs_sort setIter build tasks) = .ok sorted) :
    sort_tasks setIter build tasks aOpt elapsedMs =
      .ok ⟨build.name, sorted, (aOpt.getD .kahn).value, elapsedMs, false, none⟩ := by
  unfold sort_tasks
  simp only [hval, ne_eq, not_true_eq_false, if_false, hinner]
  unfold mkSortedTaskList
  rw [if_neg hname]
  simp only [Bool.false_and, Bool.false_eq_true, if_false]
  rw [if_neg (by omega : ¬ elapsedMs < 0)]

theorem sort_tasks_err_circ (setIter : List String → List String)
    (build : Build) (tasks : TaskDict) (aOpt : Option SortAlgorithm)
    (elapsedMs : Int) (c : List String)
    (hval : validate_dependencies build tasks = [])
    (hinner : (match aOpt.getD .kahn with
      | SortAlgorithm.kahn => kahn_sort setIter build tasks
      | SortAlgorithm.dfs => dfs_sort setIter build tasks)
        = .error (.circularDependency c)) :
    sort_tasks setIter build tasks aOpt elapsedMs =
      .error (.circularDependency c) := by
  unfold sort_tasks
  simp only [hval, ne_eq, not_true_eq_false, if_false, hinner]

/-- A Python list has duplicates iff `len(l) != len(set(l))`, the check
`Build.__post_init__` performs. -/
theorem length_ne_dedup_iff (l : List String) :
    l.length ≠ l.dedup.length ↔ ¬ l.Nodup := by
  constructor
  · intro h hnd
    exact h (by rw [List.dedup_eq_self.mpr hnd])
  · intro hnd h
    apply hnd
    have hsub : l.dedup.Sublist l := List.dedup_sublist l
    have heq : l.dedup = l := hsub.eq_of_length h.symm
    rw [← heq]
    exact List.nodup_dedup l

/-- Inversion for the `SortedTaskList` constructor: a successful
construction returns exactly the given fields. -/
theorem mkSortedTaskList_ok_inv (bn : String) (ts : List String)
    (au : String) (ms : Int) (hc : Bool) (cd : Option (List String))
    (r : SortedTaskList) (h : mkSortedTaskList bn ts au ms hc cd = .ok r) :
    r = ⟨bn, ts, au, ms, hc, cd⟩ := by
  unfold mkSortedTaskList at h
  split_ifs at h
  all_goals first
    | exact Except.noConfusion h
    | (injection h with h2; exact h2.symm)

/-- Inversion for `sort_tasks`: every successful return is a record built
from the input build's name, the selected algorithm and the measured
time, with the cycle fields cleared. -/
theorem sort_tasks_ok_inv (setIter : List String → List String)
    (build : Build) (tasks : TaskDict) (aOpt : Option SortAlgorithm)
    (elapsedMs : Int) (r : SortedTaskList)
    (h : sort_tasks setIter build tasks aOpt elapsedMs = .ok r) :
    ∃ sorted, r =
      ⟨build.name, sorted, (aOpt.getD .kahn).value, elapsedMs, false, none⟩ := by
  unfold sort_tasks at h
  rcases hval : validate_dependencies build tasks with _ | ⟨x, xs⟩
  · simp only [hval, ne_eq, not_true_eq_false, if_false] at h
    rcases hinner : (match aOpt.getD .kahn with
      | SortAlgorithm.kahn => kahn_sort setIter build tasks
      | SortAlgorithm.dfs => dfs_sort setIter build tasks) with e | sorted
    · rw [hinner] at h
      cases e <;> simp at h
    · rw [hinner] at h
      replace h : (match mkSortedTaskList build.name sorted
            (aOpt.getD SortAlgorithm.kahn).value elapsedMs false none with
          | Except.ok r2 => (Except.ok r2 : Except PyErr SortedTaskList)
          | Except.error e => Except.error (PyErr.topologicalSort build.name
              ("Sorting failed with " ++ (aOpt.getD SortAlgorithm.kahn).value ++
                ": " ++ errMessage e))) = Except.ok r := h
      rcases hmk : mkSortedTaskList build.name sorted (aOpt.getD .kahn).value
          elapsedMs false none with e | r2
      · rw [hmk] at h
        simp at h
      · rw [hmk] at h
        simp only at h
        have hr2 := mkSortedTaskList_ok_inv _ _ _ _ _ _ _ hmk
        refine ⟨sorted, ?_⟩
        have hr : r2 = r := Except.ok.inj h
        rw [← hr, hr2]
  · simp [hval] at h

/-- C9: Graph Model construction validates and rejects exactly the
invalid shapes: `Task` construction raises if and only if its name is
empty or its prerequisite set contains its own name, and `Build`
construction raises if and only if its name is empty, its member list is
empty, or its member list contains a duplicate name. -/
theorem C9_construction_validation :
    (∀ (name : String) (dependencies : List String),
      (∃ e, mkTask name dependencies = .error e) ↔
        (name = "" ∨ name ∈ dependencies)) ∧
    (∀ (name : String) (tasks : List String),
      (∃ e, mkBuild name tasks = .error e) ↔
        (name = "" ∨ tasks = [] ∨ ¬ tasks.Nodup)) := by
  constructor
  · intro name deps
    unfold mkTask
    by_cases h1 : name = ""
    · simp [h1]
    · by_cases h2 : name ∈ deps
      · simp [h1, h2]
      · simp [h1, h2]
  · intro name ts
    unfold mkBuild
    by_cases h1 : name = ""
    · simp [h1]
    · by_cases h2 : ts = []
      · simp [h1, h2]
      · by_cases h3 : ts.Nodup
        · have hlen : ¬ (ts.length ≠ ts.dedup.length) :=
            fun hc => (length_ne_dedup_iff ts).mp hc h3
          rw [if_neg h1, if_neg h2, if_neg hlen]
          simp [h1, h2, h3]
        · have hlen : ts.length ≠ ts.dedup.length := (length_ne_dedup_iff ts).mpr h3
          rw [if_neg h1, if_neg h2, if_pos hlen]
          simp [h1, h2, h3]

/-- C10: every `SortedTaskList` that `sort_tasks` returns (rather than
raising) has `has_cycles = False`, `cycle_details = None`, the input
build's name, and the name of the algorithm actually selected (Kahn when
none was requested); cycles surface only as exceptions. -/
theorem C10_result_invariants (setIter : List String → List String)
    (build : Build) (tasks : TaskDict) (aOpt : Option SortAlgorithm)
    (elapsedMs : Int) (r : SortedTaskList)
    (h : sort_tasks setIter build tasks aOpt elapsedMs = .ok r) :
    r.has_cycles = false ∧ r.cycle_details = none ∧
      r.build_name = build.name ∧
      r.algorithm_used = (aOpt.getD .kahn).value := by
  obtain ⟨sorted, hr⟩ := sort_tasks_ok_inv setIter build tasks aOpt elapsedMs r h
  rw [hr]
  exact ⟨rfl, rfl, rfl, rfl⟩

theorem C10_result_invariants_witness :
    (⟨"w10", ["u"], "kahn", 0, false, none⟩ : SortedTaskList).has_cycles = false ∧
    (⟨"w10", ["u"], "kahn", 0, false, none⟩ : SortedTaskList).cycle_details = none ∧
    (⟨"w10", ["u"], "kahn", 0, false, none⟩ : SortedTaskList).build_name = "w10" ∧
    (⟨"w10", ["u"], "kahn", 0, false, none⟩ : SortedTaskList).algorithm_used = "kahn" :=
  C10_result_invariants (fun l => l) ⟨"w10", ["u"]⟩ [("u", ⟨"u", []⟩)] none 0
    ⟨"w10", ["u"], "kahn", 0, false, none⟩ rfl

/-- C6: `validate_dependencies` returns a duplicate-free list containing
exactly the names referenced but absent (members missing from the
universe, and prerequisites of present members missing from the
universe); it is empty iff the build is referentially sound; and on the
build `{b3: [a, missing]}` with only task `a` present it returns exactly
`["missing"]`. -/
theorem C6_validate_dependencies_characterisation :
    (∀ (build : Build) (tasks : TaskDict) (x : String),
      x ∈ validate_dependencies build tasks ↔
        ((x ∈ build.tasks ∧ x ∉ dictKeys tasks) ∨
         (∃ m, m ∈ build.tasks ∧ m ∈ dictKeys tasks ∧
            x ∈ depsOf tasks m ∧ x ∉ dictKeys tasks))) ∧
    (∀ (build : Build) (tasks : TaskDict),
      (validate_dependencies build tasks).Nodup) ∧
    (∀ (build : Build) (tasks : TaskDict),
      validate_dependencies build tasks = [] ↔ ReferentiallySound build tasks) ∧
    validate_dependencies ⟨"b3", ["a", "missing"]⟩ [("a", ⟨"a", []⟩)] =
      ["missing"] := by
  refine ⟨?_, validate_dependencies_nodup, validate_dependencies_eq_nil_iff,
    by decide⟩
  intro build tasks x
  rw [validate_dependencies_mem]
  constructor
  · rintro (⟨h1, h2⟩ | ⟨m, t, hm, hget, hdep, hx⟩)
    · exact Or.inl ⟨h1, (dictGet_eq_none_iff _ _).mp h2⟩
    · refine Or.inr ⟨m, hm, ?_, ?_, (dictGet_eq_none_iff _ _).mp hx⟩
      · rw [← dictGet_isSome_iff, hget]
        rfl
      · unfold depsOf
        rw [hget]
        exact hdep
  · rintro (⟨h1, h2⟩ | ⟨m, hm, hkeys, hdep, hx⟩)
    · exact Or.inl ⟨h1, (dictGet_eq_none_iff _ _).mpr h2⟩
    · rcases hget : dictGet tasks m with _ | t
      · exact absurd ((dictGet_eq_none_iff _ _).mp hget) (by simpa using hkeys)
      · refine Or.inr ⟨m, t, hm, hget, ?_, (dictGet_eq_none_iff _ _).mpr hx⟩
        unfold depsOf at hdep
        rw [hget] at hdep
        exact hdep

/-- C8: cache lookups and writes never raise on backing-store failure:
when the Redis call raises, `get_sorted_tasks` of the cache returns
`None`, `cache_sorted_tasks` returns `False`, and the coordinator's
`get_sorted_tasks` with a failing cache produces exactly the recomputed
engine result. -/
theorem C8_cache_failure_degradation :
    (∀ loads : String → Option PyVal,
      get_sorted_tasks_cache loads .raises = .ok none) ∧
    cache_sorted_tasks .raises = false ∧
    (∀ (setIter : List String → List String) (build_name : String)
       (build : Build) (tasks : TaskDict) (aOpt : Option SortAlgorithm)
       (elapsedMs : Int) (loads : String → Option PyVal),
      build.tasks.filter (fun m => decide (m ∉ dictKeys tasks)) = [] →
      bs_get_sorted_tasks setIter build_name (some build) tasks aOpt true
          loads .raises .raises elapsedMs =
        sort_tasks setIter build tasks (some (aOpt.getD .kahn)) elapsedMs) := by
  refine ⟨fun loads => rfl, rfl, ?_⟩
  intro setIter build_name build tasks aOpt elapsedMs loads hfilt
  unfold bs_get_sorted_tasks
  simp only [hfilt, ne_eq, not_true_eq_false, if_false, if_true]
  rcases hs : sort_tasks setIter build tasks (some (aOpt.getD .kahn)) elapsedMs
    with e | s
  · simp only [get_sorted_tasks_cache, redisGet, hs]
  · simp only [get_sorted_tasks_cache, redisGet, hs]

theorem C8_cache_failure_degradation_witness :
    bs_get_sorted_tasks (fun l => l) "wb" (some ⟨"wb", ["w"]⟩)
        [("w", ⟨"w", []⟩)] none true (fun _ => none) .raises .raises 0 =
      sort_tasks (fun l => l) ⟨"wb", ["w"]⟩ [("w", ⟨"w", []⟩)] (some .kahn) 0 :=
  C8_cache_failure_degradation.2.2 (fun l => l) "wb" ⟨"wb", ["w"]⟩
    [("w", ⟨"w", []⟩)] none 0 (fun _ => none) (by decide)

/-- C7 (code bug): the coordinator's `get_topological_sort` runs
`detect_cycles` over the *entire* task universe and fails even when the
only cycle (here `x ↔ y`) is disjoint from the build's members, and what
it raises is not `CircularDependencyException` carrying the cycle but a
`TypeError` — the f-string passed to the exception constructor is
concatenated with a list.  The same build resolves fine through the
engine itself (second conjunct). -/
theorem C7_coordinator_cycle_typeerror :
    get_topological_sort (fun l => l) "b" (some ⟨"b", ["t"]⟩)
        [("t", ⟨"t", []⟩), ("x", ⟨"x", ["y"]⟩), ("y", ⟨"y", ["x"]⟩)] 0 =
      .error (.typeError ("can only concatenate str (not \"list\") to str")) ∧
    sort_tasks (fun l => l) ⟨"b", ["t"]⟩
        [("t", ⟨"t", []⟩), ("x", ⟨"x", ["y"]⟩), ("y", ⟨"y", ["x"]⟩)] none 0 =
      .ok ⟨"b", ["t"], "kahn", 0, false, none⟩ := by
  exact ⟨rfl, rfl⟩

/-- C2 (code bug): the DFS strategy returns an *anti*-topological order.
On the build `[a, b]` where `b` depends on `a` (an induced-subgraph
edge `b → a`), `sort_tasks` with DFS returns `["b", "a"]`: the
prerequisite `a` appears *after* its dependent `b`, violating the claim;
Kahn on the same input returns the valid order `["a", "b"]`. -/
theorem C2_dfs_breaks_topological_order :
    IEdge ⟨"b2", ["a", "b"]⟩ [("a", ⟨"a", []⟩), ("b", ⟨"b", ["a"]⟩)] "b" "a" ∧
    sort_tasks (fun l => l) ⟨"b2", ["a", "b"]⟩
        [("a", ⟨"a", []⟩), ("b", ⟨"b", ["a"]⟩)] (some .dfs) 0 =
      .ok ⟨"b2", ["b", "a"], "dfs", 0, false, none⟩ ∧
    (["b", "a"] : List String).indexOf "b" <
      (["b", "a"] : List String).indexOf "a" ∧
    sort_tasks (fun l => l) ⟨"b2", ["a", "b"]⟩
        [("a", ⟨"a", []⟩), ("b", ⟨"b", ["a"]⟩)] (some .kahn) 0 =
      .ok ⟨"b2", ["a", "b"], "kahn", 0, false, none⟩ := by
  refine ⟨?_, rfl, by decide, rfl⟩
  unfold IEdge
  decide

/-- C5 (counterexample): the Kahn output depends on the hash-iteration
order of the `graph[current]` neighbour set, so ties among members that
become available *during* the loop are not broken by build-list order.
With members `[r, b, c]`, where `b` and `c` both depend only on `r`,
the identity iteration order yields `[r, b, c]` but the reversed
iteration order (an equally legitimate set order) yields `[r, c, b]`,
putting `c` before `b` against the build-list order. -/
theorem C5_kahn_iteration_order_dependence :
    kahn_sort (fun l => l) ⟨"b5", ["r", "b", "c"]⟩
        [("r", ⟨"r", []⟩), ("b", ⟨"b", ["r"]⟩), ("c", ⟨"c", ["r"]⟩)] =
      .ok ["r", "b", "c"] ∧
    kahn_sort (fun l => l.reverse) ⟨"b5", ["r", "b", "c"]⟩
        [("r", ⟨"r", []⟩), ("b", ⟨"b", ["r"]⟩), ("c", ⟨"c", ["r"]⟩)] =
      .ok ["r", "c", "b"] ∧
    (["r", "c", "b"] : List String) ≠ ["r", "b", "c"] :=
  ⟨rfl, rfl, by decide⟩

/-- C5 (amended): for a fixed set-iteration order the Kahn strategy is a
pure function of its inputs (exactly reproducible), and the *initial*
queue is seeded in build-list order: whenever no member has any in-build
prerequisite (every tie is an initial tie), the output is exactly the
build's member list.  Ties arising later, via the
`for neighbor in graph[current]` set iteration, follow the hash order
instead (see the counterexample). -/
theorem C5_kahn_initial_tiebreak (setIter : List String → List String)
    (build : Build) (tasks : TaskDict)
    (hIter : ∀ l, (setIter l).Perm l)
    (hnodeps : ∀ m ∈ build.tasks, buildDeps build tasks m = []) :
    kahn_sort setIter build tasks = .ok build.tasks := by
  have hdeg0 : ∀ m, inDeg0 build tasks m = 0 := by
    intro m
    unfold inDeg0
    by_cases h : m ∈ build.tasks
    · rw [if_pos h, hnodeps m h]
      rfl
    · rw [if_neg h]
  have hfilter : build.tasks.filter
      (fun m => decide (inDeg0 build tasks m = 0)) = build.tasks := by
    apply List.filter_eq_self.mpr
    intro m _
    simp [hdeg0 m]
  have hdeps_empty : ∀ current, dependentsOf build tasks current = [] := by
    intro current
    unfold dependentsOf
    rw [List.filter_eq_nil]
    intro m hm
    simp [hnodeps m hm]
  have hloop : ∀ (fuel : ℕ) (q res : List String) (deg : String → Int),
      q.length ≤ fuel →
      kahnLoop build tasks setIter fuel ⟨q, res, deg⟩ = res ++ q := by
    intro fuel
    induction fuel with
    | zero =>
      intro q res deg hq
      rw [List.eq_nil_of_length_eq_zero (Nat.le_zero.mp hq)]
      rw [kahnLoop]
      simp
    | succ fuel ih =>
      intro q res deg hq
      rw [kahnLoop]
      cases q with
      | nil => simp
      | cons current rest =>
        have hsi : setIter (dependentsOf build tasks current) = [] := by
          rw [hdeps_empty current]
          exact (hIter []).eq_nil
        have hpr : kahnProcess build tasks setIter deg current = (deg, []) := by
          unfold kahnProcess
          rw [hsi]
          rfl
        simp only [hpr, List.append_nil]
        rw [ih rest (res ++ [current]) deg (by simpa using Nat.le_of_succ_le_succ hq)]
        simp
  have hsum : (build.tasks.map (fun m => (inDeg0 build tasks m).toNat)).sum = 0 := by
    apply List.sum_eq_zero
    intro x hx
    obtain ⟨m, _, rfl⟩ := List.mem_map.mp hx
    rw [hdeg0 m]
    rfl
  have hrun : kahnRun setIter build tasks = build.tasks := by
    unfold kahnRun
    rw [hfilter, hsum]
    rw [hloop (build.tasks.length + 0) build.tasks [] (inDeg0 build tasks) (by omega)]
    rfl
  unfold kahn_sort
  simp [hrun]

theorem C5_kahn_initial_tiebreak_witness :
    kahn_sort (fun l => l) ⟨"w5", ["p", "q"]⟩
        [("p", ⟨"p", []⟩), ("q", ⟨"q", []⟩)] = .ok ["p", "q"] :=
  C5_kahn_initial_tiebreak (fun l => l) ⟨"w5", ["p", "q"]⟩
    [("p", ⟨"p", []⟩), ("q", ⟨"q", []⟩)] (fun l => List.Perm.refl l) (by decide)

/-- C1: for every build and task universe that are well-formed and
referentially sound with an acyclic induced subgraph, `sort_tasks` under
either algorithm (and any set-iteration order) returns a result whose
task list is a permutation of the build's member names — same elements,
no duplicates, no omissions. -/
theorem C1_sort_permutation (setIter : List String → List String)
    (build : Build) (tasks : TaskDict) (aOpt : Option SortAlgorithm)
    (elapsedMs : Int) (hIter : ∀ l, (setIter l).Perm l)
    (hwf : WellFormed build tasks) (hel : 0 ≤ elapsedMs)
    (hacyc : ¬ HasCycle (IEdge build tasks)) :
    ∃ r, sort_tasks setIter build tasks aOpt elapsedMs = .ok r ∧
      r.tasks.Perm build.tasks ∧ r.tasks.Nodup := by
  have hval : validate_dependencies build tasks = [] :=
    (validate_dependencies_eq_nil_iff build tasks).mpr hwf.2.2.2
  rcases halg : aOpt.getD .kahn with _ | _
  · obtain ⟨hok, hperm⟩ := kahn_sort_ok_of_acyclic build tasks setIter hIter
      hwf.2.1 hwf.depsNodup hwf.noSelfDep hacyc
    refine ⟨⟨build.name, kahnRun setIter build tasks, (aOpt.getD .kahn).value,
      elapsedMs, false, none⟩, ?_, hperm, hperm.nodup_iff.mpr hwf.2.1⟩
    exact sort_tasks_ok_build setIter build tasks aOpt elapsedMs _ hval hwf.1 hel
      (by rw [halg]; exact hok)
  · obtain ⟨rl, hok, hperm⟩ := dfs_sort_ok_of_acyclic build tasks setIter hIter
      hwf.2.1 hacyc
    refine ⟨⟨build.name, rl, (aOpt.getD .kahn).value,
      elapsedMs, false, none⟩, ?_, hperm, hperm.nodup_iff.mpr hwf.2.1⟩
    exact sort_tasks_ok_build setIter build tasks aOpt elapsedMs _ hval hwf.1 hel
      (by rw [halg]; exact hok)

theorem C1_sort_permutation_witness :
    ∃ r, sort_tasks (fun l => l) ⟨"w1", ["s"]⟩ [("s", ⟨"s", []⟩)] none 0 =
        .ok r ∧ r.tasks.Perm ["s"] ∧ r.tasks.Nodup :=
  C1_sort_permutation (fun l => l) ⟨"w1", ["s"]⟩ [("s", ⟨"s", []⟩)] none 0
    (fun l => List.Perm.refl l)
    (by unfold WellFormed ReferentiallySound; decide) (by decide)
    (by
      rintro ⟨n, h⟩
      have hnoedge : ∀ u v, ¬ IEdge ⟨"w1", ["s"]⟩ [("s", ⟨"s", []⟩)] u v := by
        rintro u v ⟨hu, hv, hd⟩
        simp at hu
        subst hu
        have hdeps : depsOf [("s", ⟨"s", []⟩)] "s" = [] := rfl
        rw [hdeps] at hd
        exact List.not_mem_nil v hd
      cases h with
      | single h2 => exact hnoedge _ _ h2
      | tail _ h2 => exact hnoedge _ _ h2)

/-- C3: when the induced subgraph of a well-formed, referentially sound
build contains a cycle, `sort_tasks` raises `CircularDependencyException`
for both algorithms, and `detect_cycles` over the same universe returns a
non-empty list, every recorded entry being a genuine dependency loop of
the universe graph. -/
theorem C3_cycle_error_and_detection (setIter : List String → List String)
    (build : Build) (tasks : TaskDict) (elapsedMs : Int)
    (hIter : ∀ l, (setIter l).Perm l) (hwf : WellFormed build tasks)
    (hcyc : HasCycle (IEdge build tasks)) :
    (∀ aOpt : Option SortAlgorithm, ∃ c,
      sort_tasks setIter build tasks aOpt elapsedMs =
        .error (.circularDependency c)) ∧
    detect_cycles setIter tasks ≠ [] ∧
    (∀ c ∈ detect_cycles setIter tasks, IsLoop (UEdge tasks) c) := by
  have hval : validate_dependencies build tasks = [] :=
    (validate_dependencies_eq_nil_iff build tasks).mpr hwf.2.2.2
  refine ⟨?_, ?_, detect_cycles_sound tasks setIter hIter⟩
  · intro aOpt
    rcases halg : aOpt.getD .kahn with _ | _
    · obtain ⟨c, hc⟩ := kahn_sort_err_of_cycle build tasks setIter hIter hwf.2.1
        hwf.depsNodup hwf.noSelfDep hwf.2.2.2.1 hcyc
      exact ⟨c, sort_tasks_err_circ setIter build tasks aOpt elapsedMs c hval
        (by rw [halg]; exact hc)⟩
    · obtain ⟨c, hc⟩ := dfs_sort_err_of_cycle build tasks setIter hIter hwf.2.1 hcyc
      exact ⟨c, sort_tasks_err_circ setIter build tasks aOpt elapsedMs c hval
        (by rw [halg]; exact hc)⟩
  · intro hnil
    apply detect_cycles_empty_acyclic tasks setIter hIter hnil
    obtain ⟨n, h⟩ := hcyc
    have hmono : ∀ u v, IEdge build tasks u v → UEdge tasks u v := by
      rintro u v ⟨hu, hv, hd⟩
      exact ⟨hwf.2.2.2.1 u hu, hwf.2.2.2.2 u hu v hd, hd⟩
    exact ⟨n, Relation.TransGen.mono hmono h⟩

theorem C3_cycle_error_and_detection_witness :
    (∀ aOpt : Option SortAlgorithm, ∃ c,
      sort_tasks (fun l => l) ⟨"w3", ["x", "y"]⟩
          [("x", ⟨"x", ["y"]⟩), ("y", ⟨"y", ["x"]⟩)] aOpt 0 =
        .error (.circularDependency c)) ∧
    detect_cycles (fun l => l) [("x", ⟨"x", ["y"]⟩), ("y", ⟨"y", ["x"]⟩)] ≠ [] ∧
    (∀ c ∈ detect_cycles (fun l => l) [("x", ⟨"x", ["y"]⟩), ("y", ⟨"y", ["x"]⟩)],
      IsLoop (UEdge [("x", ⟨"x", ["y"]⟩), ("y", ⟨"y", ["x"]⟩)]) c) :=
  C3_cycle_error_and_detection (fun l => l) ⟨"w3", ["x", "y"]⟩
    [("x", ⟨"x", ["y"]⟩), ("y", ⟨"y", ["x"]⟩)] 0 (fun l => List.Perm.refl l)
    (by unfold WellFormed ReferentiallySound; decide)
    ⟨"x", Relation.TransGen.tail (b := "y")
      (Relation.TransGen.single (by unfold IEdge; decide))
      (by unfold IEdge; decide)⟩

/-- A ring walk: from the list's head, each task's prerequisite set is
exactly the singleton next element, and the final element's prerequisite
set is exactly `root`. -/
def ringChain (tasks : TaskDict) (root : String) : List String → Bool
  | [] => false
  | [a] => decide (depsOf tasks a = [root])
  | a :: b :: rest => decide (depsOf tasks a = [b]) && ringChain tasks root (b :: rest)

/-- A set of task names forming one simple dependency ring: from every
member there is a duplicate-free walk through exactly the members, each
step being the unique prerequisite, closing back at the start. -/
def RingSet (tasks : TaskDict) (R : List String) : Prop :=
  R ≠ [] ∧ ∀ n ∈ R, ∃ W, W.Nodup ∧ W.head? = some n ∧ W.Perm R ∧
    ringChain tasks n W = true

/-- A task universe containing exactly two node-disjoint cycles: two
disjoint dependency rings, every other task having no prerequisites. -/
def TwoDisjointRings (tasks : TaskDict) (R1 R2 : List String) : Prop :=
  RingSet tasks R1 ∧ RingSet tasks R2 ∧ (∀ x ∈ R1, x ∉ R2) ∧
  (∀ p ∈ tasks, Prod.fst p ∉ R1 → Prod.fst p ∉ R2 →
    (Prod.snd p).dependencies = [])

theorem ringChain_head_isSome (tasks : TaskDict) (root : String)
    (a : String) (l : List String) (h : ringChain tasks root (a :: l) = true) :
    (dictGet tasks a).isSome = true := by
  have hne : depsOf tasks a ≠ [] := by
    cases l with
    | nil =>
      simp only [ringChain, decide_eq_true_eq] at h
      rw [h]
      simp
    | cons b rest =>
      simp only [ringChain, Bool.and_eq_true, decide_eq_true_eq] at h
      rw [h.1]
      simp
  unfold depsOf at hne
  rcases hget : dictGet tasks a with _ | t
  · rw [hget] at hne
    simp at hne
  · rfl

theorem ringChain_mem_isSome (tasks : TaskDict) (root : String) :
    ∀ (l : List String), ringChain tasks root l = true →
      ∀ x ∈ l, (dictGet tasks x).isSome = true := by
  intro l
  induction l with
  | nil =>
    intro h
    simp [ringChain] at h
  | cons a l2 ih =>
    intro h x hx
    rcases List.mem_cons.mp hx with rfl | hx2
    · exact ringChain_head_isSome tasks root x l2 h
    · cases l2 with
      | nil => simp at hx2
      | cons b rest =>
        simp only [ringChain, Bool.and_eq_true] at h
        exact ih h.2 x hx2

/-- Reduction of one `dfs_cycle_detection` step on an unvisited,
off-stack, present node. -/
theorem dfsCD_step (tasks : TaskDict) (si : List String → List String)
    (fuel : ℕ) (n : String) (path : List String) (st : DetectState) (t : Task)
    (hp : n ∉ path) (hv : n ∉ st.visited) (hget : dictGet tasks n = some t) :
    dfsCD tasks si (fuel + 1) n path st =
      ((si t.dependencies).filter (fun dep => (dictGet tasks dep).isSome)).foldl
        (fun s dep => dfsCD tasks si fuel dep (path ++ [n]) s)
        ⟨st.visited ++ [n], st.cycles⟩ := by
  rw [dfsCD, if_neg hp, if_neg hv]
  show (match dictGet tasks n with
    | none => (⟨st.visited ++ [n], st.cycles⟩ : DetectState)
    | some t => ((si t.dependencies).filter (fun dep => (dictGet tasks dep).isSome)).foldl
        (fun s dep => dfsCD tasks si fuel dep (path ++ [n]) s)
        ⟨st.visited ++ [n], st.cycles⟩) = _
  rw [hget]

/-- Reduction of one `dfs_cycle_detection` step on a node already on the
recursion stack: the cycle from its first stack occurrence is recorded. -/
theorem dfsCD_cycleHit (tasks : TaskDict) (si : List String → List String)
    (fuel : ℕ) (n : String) (path : List String) (st : DetectState)
    (hp : n ∈ path) :
    dfsCD tasks si (fuel + 1) n path st =
      ⟨st.visited, st.cycles ++ [path.drop (path.indexOf n) ++ [n]]⟩ := by
  rw [dfsCD, if_pos hp]

/-- Reduction of one `dfs_cycle_detection` step on a present node with no
prerequisites: it is marked visited and nothing else happens. -/
theorem dfsCD_isolated (tasks : TaskDict) (si : List String → List String)
    (hIter : ∀ l, (si l).Perm l) (n : String) (t : Task)
    (hget : dictGet tasks n = some t) (hdeps : t.dependencies = [])
    (V : List String) (C : List (List String)) (fuel : ℕ)
    (hnV : n ∉ V) (hfuel : 1 ≤ fuel) :
    dfsCD tasks si fuel n [] ⟨V, C⟩ = ⟨V ++ [n], C⟩ := by
  obtain ⟨f, rfl⟩ : ∃ f, fuel = f + 1 := ⟨fuel - 1, by omega⟩
  rw [dfsCD_step tasks si f n [] ⟨V, C⟩ t (List.not_mem_nil n) hnV hget]
  have hsi : si t.dependencies = [] := by
    rw [hdeps]
    exact (hIter []).eq_nil
  rw [hsi]
  rfl

/-- The ring-walk computation of `dfs_cycle_detection`: entering a ring
suffix `a :: S0` with stack `P` (the ring prefix already walked, headed
by the walk's root), the DFS walks the rest of the ring, records exactly
the single cycle `walk ++ [root]`, and appends exactly the suffix to the
visited set. -/
theorem ringWalk (tasks : TaskDict) (si : List String → List String)
    (hIter : ∀ l, (si l).Perm l) (root : String)
    (hroot : (dictGet tasks root).isSome = true) :
    ∀ (S0 : List String) (a : String) (P V0 : List String)
      (C : List (List String)) (fuel : ℕ),
      (P ++ a :: S0).Nodup →
      (P ++ a :: S0).head? = some root →
      ringChain tasks root (a :: S0) = true →
      (∀ x ∈ V0, x ∉ P ++ a :: S0) →
      S0.length + 2 ≤ fuel →
      dfsCD tasks si fuel a P ⟨V0 ++ P, C⟩ =
        ⟨V0 ++ (P ++ a :: S0), C ++ [(P ++ a :: S0) ++ [root]]⟩ := by
  intro S0
  induction S0 with
  | nil =>
    intro a P V0 C fuel hnd hhead hchain hdis hfuel
    obtain ⟨f, rfl⟩ : ∃ f, fuel = f + 2 := ⟨fuel - 2, by omega⟩
    have haP : a ∉ P := by
      intro hc
      exact (List.nodup_append.mp hnd).2.2 hc (List.mem_cons_self a [])
    have haV : a ∉ V0 ++ P := by
      intro hc
      rcases List.mem_append.mp hc with h | h
      · exact hdis a h (List.mem_append_right P (List.mem_cons_self a []))
      · exact haP h
    simp only [ringChain, decide_eq_true_eq] at hchain
    rcases hget : dictGet tasks a with _ | t
    · exfalso
      unfold depsOf at hchain
      rw [hget] at hchain
      simp at hchain
    · have ht : t.dependencies = [root] := by
        unfold depsOf at hchain
        rw [hget] at hchain
        exact hchain
      rw [dfsCD_step tasks si (f + 1) a P ⟨V0 ++ P, C⟩ t haP haV hget]
      have hsi1 : si t.dependencies = [root] := by
        rw [ht]
        exact List.perm_singleton.mp (hIter [root])
      rw [hsi1]
      have hfil : [root].filter (fun dep => (dictGet tasks dep).isSome) = [root] := by
        simp [hroot]
      rw [hfil, List.foldl_cons, List.foldl_nil]
      obtain ⟨tl, htl⟩ : ∃ tl, P ++ [a] = root :: tl := by
        cases hP : P ++ [a] with
        | nil => rw [hP] at hhead; simp at hhead
        | cons h0 tl =>
          rw [hP] at hhead
          simp only [List.head?_cons, Option.some.injEq] at hhead
          exact ⟨tl, by rw [hhead]⟩
      have hrm : root ∈ P ++ [a] := by
        rw [htl]
        exact List.mem_cons_self root tl
      dsimp only
      rw [dfsCD_cycleHit tasks si f root (P ++ [a]) ⟨(V0 ++ P) ++ [a], C⟩ hrm]
      dsimp only
      rw [htl, List.indexOf_cons_self, List.drop_zero]
      rw [show (V0 ++ P) ++ [a] = V0 ++ (P ++ [a]) from List.append_assoc V0 P [a]]
      rw [htl]
  | cons b rest ih =>
    intro a P V0 C fuel hnd hhead hchain hdis hfuel
    obtain ⟨f, rfl⟩ : ∃ f, fuel = f + 1 := ⟨fuel - 1, by omega⟩
    have haP : a ∉ P := by
      intro hc
      exact (List.nodup_append.mp hnd).2.2 hc (List.mem_cons_self a (b :: rest))
    have haV : a ∉ V0 ++ P := by
      intro hc
      rcases List.mem_append.mp hc with h | h
      · exact hdis a h (List.mem_append_right P (List.mem_cons_self a (b :: rest)))
      · exact haP h
    simp only [ringChain, Bool.and_eq_true, decide_eq_true_eq] at hchain
    obtain ⟨hdepa, hchain2⟩ := hchain
    rcases hget : dictGet tasks a with _ | t
    · exfalso
      unfold depsOf at hdepa
      rw [hget] at hdepa
      simp at hdepa
    · have ht : t.dependencies = [b] := by
        unfold depsOf at hdepa
        rw [hget] at hdepa
        exact hdepa
      rw [dfsCD_step tasks si f a P ⟨V0 ++ P, C⟩ t haP haV hget]
      have hsi1 : si t.dependencies = [b] := by
        rw [ht]
        exact List.perm_singleton.mp (hIter [b])
      rw [hsi1]
      have hbsome : (dictGet tasks b).isSome = true :=
        ringChain_head_isSome tasks root b rest hchain2
      have hfil : [b].filter (fun dep => (dictGet tasks dep).isSome) = [b] := by
        simp [hbsome]
      rw [hfil, List.foldl_cons, List.foldl_nil]
      have hshift : (P ++ [a]) ++ b :: rest = P ++ a :: b :: rest := by
        rw [List.append_assoc]
        rfl
      dsimp only
      rw [show (V0 ++ P) ++ [a] = V0 ++ (P ++ [a]) from List.append_assoc V0 P [a]]
      have hx := ih b (P ++ [a]) V0 C f
        (by rw [hshift]; exact hnd)
        (by rw [hshift]; exact hhead)
        hchain2
        (by intro x hxv; rw [hshift]; exact hdis x hxv)
        (by simp only [List.length_cons] at hfuel; omega)
      rw [hshift] at hx
      exact hx

/-- The fold of `detect_cycles` over a key list, starting from an
arbitrary state. -/
def detectFold (tasks : TaskDict) (si : List String → List String)
    (ks : List String) (st : DetectState) : DetectState :=
  ks.foldl (fun st n => if n ∈ st.visited then st
    else dfsCD tasks si (tasks.length + 1) n [] st) st

theorem detect_cycles_eq_detectFold (tasks : TaskDict)
    (si : List String → List String) :
    detect_cycles si tasks = (detectFold tasks si (dictKeys tasks) ⟨[], []⟩).cycles := rfl

/-- On a universe made of two disjoint rings plus prerequisite-free
tasks, `detect_cycles` records exactly two cycles. -/
theorem detect_two_rings (tasks : TaskDict) (si : List String → List String)
    (hIter : ∀ l, (si l).Perm l) (hkeys : (dictKeys tasks).Nodup)
    (R1 R2 : List String) (h1 : RingSet tasks R1) (h2 : RingSet tasks R2)
    (hdis : ∀ x ∈ R1, x ∉ R2)
    (hiso : ∀ p ∈ tasks, Prod.fst p ∉ R1 → Prod.fst p ∉ R2 →
      (Prod.snd p).dependencies = []) :
    (detect_cycles si tasks).length = 2 := by
  have hdis2 : ∀ x ∈ R2, x ∉ R1 := fun x hx hx1 => hdis x hx1 hx
  -- a ring walk starting at an unvisited ring node visits exactly the
  -- ring and records exactly one cycle
  have hring : ∀ (R : List String), RingSet tasks R →
      ∀ (k : String) (V : List String) (C : List (List String)),
        k ∈ R → (∀ x ∈ V, x ∉ R) →
        ∃ W, W.Perm R ∧
          dfsCD tasks si (tasks.length + 1) k [] ⟨V, C⟩ =
            ⟨V ++ W, C ++ [W ++ [k]]⟩ := by
    intro R hR k V C hkR hVdis
    obtain ⟨W, hWnd, hWhead, hWperm, hWchain⟩ := hR.2 k hkR
    obtain ⟨W0, rfl⟩ : ∃ W0, W = k :: W0 := by
      cases W with
      | nil => simp at hWhead
      | cons w0 W0 =>
        simp only [List.head?_cons, Option.some.injEq] at hWhead
        exact ⟨W0, by rw [hWhead]⟩
    have hroot : (dictGet tasks k).isSome = true :=
      ringChain_head_isSome tasks k k W0 hWchain
    have hsub : ∀ x ∈ k :: W0, x ∈ dictKeys tasks := by
      intro x hx
      rw [← dictGet_isSome_iff]
      exact ringChain_mem_isSome tasks k (k :: W0) hWchain x hx
    have hlen : W0.length + 2 ≤ tasks.length + 1 := by
      have hsp := (List.subperm_of_subset hWnd hsub).length_le
      have hkl : (dictKeys tasks).length = tasks.length := List.length_map _ _
      simp only [List.length_cons] at hsp
      omega
    have hVd2 : ∀ x ∈ V, x ∉ [] ++ k :: W0 := by
      intro x hxv hxw
      exact hVdis x hxv (hWperm.mem_iff.mp hxw)
    have hw := ringWalk tasks si hIter k hroot W0 k [] V C
      (tasks.length + 1) hWnd rfl hWchain hVd2 hlen
    rw [List.append_nil] at hw
    exact ⟨k :: W0, hWperm, hw⟩
  have aux : ∀ (ks : List String) (V : List String) (C : List (List String))
      (b1 b2 : Bool),
      (∀ x ∈ ks, x ∈ dictKeys tasks) →
      (b1 = true → ∀ x ∈ R1, x ∈ V) →
      (b1 = false → ∀ x ∈ V, x ∉ R1) →
      (b2 = true → ∀ x ∈ R2, x ∈ V) →
      (b2 = false → ∀ x ∈ V, x ∉ R2) →
      C.length = b1.toNat + b2.toNat →
      ∃ (c1 c2 : Bool),
        (c1 = true → ∀ x ∈ R1, x ∈ (detectFold tasks si ks ⟨V, C⟩).visited) ∧
        (c1 = false → ∀ x ∈ (detectFold tasks si ks ⟨V, C⟩).visited, x ∉ R1) ∧
        (c2 = true → ∀ x ∈ R2, x ∈ (detectFold tasks si ks ⟨V, C⟩).visited) ∧
        (c2 = false → ∀ x ∈ (detectFold tasks si ks ⟨V, C⟩).visited, x ∉ R2) ∧
        (detectFold tasks si ks ⟨V, C⟩).cycles.length = c1.toNat + c2.toNat ∧
        (∀ x ∈ ks, x ∈ (detectFold tasks si ks ⟨V, C⟩).visited) ∧
        (∀ x ∈ V, x ∈ (detectFold tasks si ks ⟨V, C⟩).visited) := by
    intro ks
    induction ks with
    | nil =>
      intro V C b1 b2 _ hb1t hb1f hb2t hb2f hlen
      exact ⟨b1, b2, hb1t, hb1f, hb2t, hb2f, hlen,
        fun x hx => absurd hx (List.not_mem_nil x), fun x hx => hx⟩
    | cons k ks ihk =>
      intro V C b1 b2 hks hb1t hb1f hb2t hb2f hlen
      have hkkeys : k ∈ dictKeys tasks := hks k (List.mem_cons_self k ks)
      have hks2 : ∀ x ∈ ks, x ∈ dictKeys tasks :=
        fun x hx => hks x (List.mem_cons_of_mem _ hx)
      by_cases hv : k ∈ V
      · have hstep : detectFold tasks si (k :: ks) ⟨V, C⟩ =
            detectFold tasks si ks ⟨V, C⟩ := by
          unfold detectFold
          rw [List.foldl_cons]
          dsimp only
          rw [if_pos hv]
        rw [hstep]
        obtain ⟨c1, c2, g1, g2, g3, g4, g5, g6, g7⟩ :=
          ihk V C b1 b2 hks2 hb1t hb1f hb2t hb2f hlen
        refine ⟨c1, c2, g1, g2, g3, g4, g5, ?_, g7⟩
        intro x hx
        rcases List.mem_cons.mp hx with rfl | hx2
        · exact g7 x hv
        · exact g6 x hx2
      · by_cases hk1 : k ∈ R1
        · have hb1 : b1 = false := by
            cases b1
            · rfl
            · exact absurd (hb1t rfl k hk1) hv
          subst hb1
          obtain ⟨W, hWperm, hw⟩ :=
            hring R1 h1 k V C hk1 (fun x hx => hb1f rfl x hx)
          have hstep : detectFold tasks si (k :: ks) ⟨V, C⟩ =
              detectFold tasks si ks ⟨V ++ W, C ++ [W ++ [k]]⟩ := by
            unfold detectFold
            rw [List.foldl_cons]
            dsimp only
            rw [if_neg hv, hw]
          rw [hstep]
          obtain ⟨c1, c2, g1, g2, g3, g4, g5, g6, g7⟩ :=
            ihk (V ++ W) (C ++ [W ++ [k]]) true b2 hks2
              (fun _ x hx => List.mem_append_right V (hWperm.mem_iff.mpr hx))
              (fun hc => Bool.noConfusion hc)
              (fun hb x hx => List.mem_append_left W (hb2t hb x hx))
              (fun hb x hx => by
                rcases List.mem_append.mp hx with h | h
                · exact hb2f hb x h
                · exact hdis x (hWperm.mem_iff.mp h))
              (by rw [List.length_append, hlen]; cases b2 <;> rfl)
          refine ⟨c1, c2, g1, g2, g3, g4, g5, ?_, ?_⟩
          · intro x hx
            rcases List.mem_cons.mp hx with rfl | hx2
            · exact g7 x (List.mem_append_right V (hWperm.mem_iff.mpr hk1))
            · exact g6 x hx2
          · intro x hx
            exact g7 x (List.mem_append_left W hx)
        · by_cases hk2 : k ∈ R2
          · have hb2 : b2 = false := by
              cases b2
              · rfl
              · exact absurd (hb2t rfl k hk2) hv
            subst hb2
            obtain ⟨W, hWperm, hw⟩ :=
              hring R2 h2 k V C hk2 (fun x hx => hb2f rfl x hx)
            have hstep : detectFold tasks si (k :: ks) ⟨V, C⟩ =
                detectFold tasks si ks ⟨V ++ W, C ++ [W ++ [k]]⟩ := by
              unfold detectFold
              rw [List.foldl_cons]
              dsimp only
              rw [if_neg hv, hw]
            rw [hstep]
            obtain ⟨c1, c2, g1, g2, g3, g4, g5, g6, g7⟩ :=
              ihk (V ++ W) (C ++ [W ++ [k]]) b1 true hks2
                (fun hb x hx => List.mem_append_left W (hb1t hb x hx))
                (fun hb x hx => by
                  rcases List.mem_append.mp hx with h | h
                  · exact hb1f hb x h
                  · exact hdis2 x (hWperm.mem_iff.mp h))
                (fun _ x hx => List.mem_append_right V (hWperm.mem_iff.mpr hx))
                (fun hc => Bool.noConfusion hc)
                (by rw [List.length_append, hlen]; cases b1 <;> rfl)
            refine ⟨c1, c2, g1, g2, g3, g4, g5, ?_, ?_⟩
            · intro x hx
              rcases List.mem_cons.mp hx with rfl | hx2
              · exact g7 x (List.mem_append_right V (hWperm.mem_iff.mpr hk2))
              · exact g6 x hx2
            · intro x hx
              exact g7 x (List.mem_append_left W hx)
          · have hsome : (dictGet tasks k).isSome = true :=
              (dictGet_isSome_iff tasks k).mpr hkkeys
            rcases hget : dictGet tasks k with _ | t
            · rw [hget] at hsome
              simp at hsome
            · have hdeps : t.dependencies = [] :=
                hiso (k, t) (dictGet_mem tasks k t hget) hk1 hk2
              have hstep : detectFold tasks si (k :: ks) ⟨V, C⟩ =
                  detectFold tasks si ks ⟨V ++ [k], C⟩ := by
                unfold detectFold
                rw [List.foldl_cons]
                dsimp only
                rw [if_neg hv, dfsCD_isolated tasks si hIter k t hget hdeps V C
                  (tasks.length + 1) hv (by omega)]
              rw [hstep]
              obtain ⟨c1, c2, g1, g2, g3, g4, g5, g6, g7⟩ :=
                ihk (V ++ [k]) C b1 b2 hks2
                  (fun hb x hx => List.mem_append_left [k] (hb1t hb x hx))
                  (fun hb x hx => by
                    rcases List.mem_append.mp hx with h | h
                    · exact hb1f hb x h
                    · rw [List.mem_singleton] at h
                      subst h
                      exact hk1)
                  (fun hb x hx => List.mem_append_left [k] (hb2t hb x hx))
                  (fun hb x hx => by
                    rcases List.mem_append.mp hx with h | h
                    · exact hb2f hb x h
                    · rw [List.mem_singleton] at h
                      subst h
                      exact hk2)
                  hlen
              refine ⟨c1, c2, g1, g2, g3, g4, g5, ?_, ?_⟩
              · intro x hx
                rcases List.mem_cons.mp hx with rfl | hx2
                · exact g7 x (List.mem_append_right V (List.mem_singleton.mpr rfl))
                · exact g6 x hx2
              · intro x hx
                exact g7 x (List.mem_append_left [k] hx)
  rw [detect_cycles_eq_detectFold]
  obtain ⟨r1, hr1⟩ := List.exists_mem_of_ne_nil R1 h1.1
  obtain ⟨r2, hr2⟩ := List.exists_mem_of_ne_nil R2 h2.1
  have hr1k : r1 ∈ dictKeys tasks := by
    obtain ⟨W, _, _, hWperm, hWchain⟩ := h1.2 r1 hr1
    rw [← dictGet_isSome_iff]
    exact ringChain_mem_isSome tasks r1 W hWchain r1 (hWperm.mem_iff.mpr hr1)
  have hr2k : r2 ∈ dictKeys tasks := by
    obtain ⟨W, _, _, hWperm, hWchain⟩ := h2.2 r2 hr2
    rw [← dictGet_isSome_iff]
    exact ringChain_mem_isSome tasks r2 W hWchain r2 (hWperm.mem_iff.mpr hr2)
  obtain ⟨c1, c2, hc1t, hc1f, hc2t, hc2f, hlen, hall, _⟩ :=
    aux (dictKeys tasks) [] [] false false (fun x hx => hx)
      (fun hc => absurd hc Bool.false_ne_true)
      (fun _ x hx => absurd hx (List.not_mem_nil x))
      (fun hc => absurd hc Bool.false_ne_true)
      (fun _ x hx => absurd hx (List.not_mem_nil x))
      rfl
  have hc1 : c1 = true := by
    cases c1
    · exact absurd hr1 (hc1f rfl r1 (hall r1 hr1k))
    · rfl
  have hc2 : c2 = true := by
    cases c2
    · exact absurd hr2 (hc2f rfl r2 (hall r2 hr2k))
    · rfl
  rw [hlen, hc1, hc2]
  rfl

/-- Every recorded loop has the closed-walk shape: the starting node,
then intermediate nodes, closing back at the starting node, with every
step a dependency edge. -/
theorem isLoop_shape {E : String → String → Prop} {c : List String}
    (h : IsLoop E c) : ∃ n mid, c = n :: mid ++ [n] ∧
      List.Chain E n (mid ++ [n]) := by
  obtain ⟨n, l, rfl, hlne, hchain, hlast⟩ := h
  have hg : l.getLast hlne = n := by
    have h2 := List.getLast?_eq_getLast l hlne
    rw [hlast] at h2
    exact (Option.some.inj h2).symm
  have hdl : l.dropLast ++ [n] = l := by
    rw [← hg]
    exact List.dropLast_append_getLast hlne
  exact ⟨n, l.dropLast, by rw [List.cons_append, hdl], by rw [hdl]; exact hchain⟩

/-- The fixture universe with two disjoint rings (`a1 ↔ a2` and
`b1 → b3 → b2 → b1`) plus a prerequisite-free task. -/
def multiCycleTasks : TaskDict :=
  [("a1", ⟨"a1", ["a2"]⟩), ("a2", ⟨"a2", ["a1"]⟩),
   ("b1", ⟨"b1", ["b3"]⟩), ("b2", ⟨"b2", ["b1"]⟩), ("b3", ⟨"b3", ["b2"]⟩),
   ("independent", ⟨"independent", []⟩)]

/-- C4: `detect_cycles` on an acyclic universe returns the empty list;
on a universe consisting of exactly two node-disjoint dependency rings
(every other task prerequisite-free) it returns exactly two cycles —
not one, not zero — each an ordered list of names forming a closed
dependency loop with the starting node repeated at the end.  The
traversal therefore continues past the first recorded cycle. -/
theorem C4_detect_cycles_counts :
    (∀ (setIter : List String → List String) (tasks : TaskDict),
      (∀ l, (setIter l).Perm l) → ¬ HasCycle (UEdge tasks) →
      detect_cycles setIter tasks = []) ∧
    (∀ (setIter : List String → List String) (tasks : TaskDict)
       (R1 R2 : List String), (∀ l, (setIter l).Perm l) →
      (dictKeys tasks).Nodup → TwoDisjointRings tasks R1 R2 →
      (detect_cycles setIter tasks).length = 2 ∧
      ∀ c ∈ detect_cycles setIter tasks, ∃ n mid,
        c = n :: mid ++ [n] ∧ List.Chain (UEdge tasks) n (mid ++ [n])) := by
  refine ⟨fun si tasks hIter hacyc =>
    detect_cycles_eq_nil_of_acyclic tasks si hIter hacyc, ?_⟩
  intro si tasks R1 R2 hIter hkeys htwo
  obtain ⟨h1, h2, hdis, hiso⟩ := htwo
  refine ⟨detect_two_rings tasks si hIter hkeys R1 R2 h1 h2 hdis hiso, ?_⟩
  intro c hc
  exact isLoop_shape (detect_cycles_sound tasks si hIter c hc)

theorem C4_detect_cycles_counts_witness :
    detect_cycles (fun l => l) [("a", ⟨"a", []⟩)] = [] ∧
    (detect_cycles (fun l => l) multiCycleTasks).length = 2 ∧
    (∀ c ∈ detect_cycles (fun l => l) multiCycleTasks, ∃ n mid,
      c = n :: mid ++ [n] ∧
      List.Chain (UEdge multiCycleTasks) n (mid ++ [n])) := by
  have hacyc : ¬ HasCycle (UEdge [("a", ⟨"a", []⟩)]) := by
    rintro ⟨n, h⟩
    have hnoedge : ∀ u v, ¬ UEdge [("a", ⟨"a", []⟩)] u v := by
      rintro u v ⟨hu, hv, hd⟩
      simp [dictKeys] at hu
      subst hu
      have hdeps : depsOf [("a", ⟨"a", []⟩)] "a" = [] := rfl
      rw [hdeps] at hd
      exact List.not_mem_nil v hd
    cases h with
    | single h2 => exact hnoedge _ _ h2
    | tail _ h2 => exact hnoedge _ _ h2
  have htwo : TwoDisjointRings multiCycleTasks ["a1", "a2"] ["b1", "b2", "b3"] := by
    refine ⟨⟨by decide, ?_⟩, ⟨by decide, ?_⟩, by decide, by decide⟩
    · intro n hn
      simp only [List.mem_cons, List.not_mem_nil, or_false] at hn
      rcases hn with rfl | rfl
      · exact ⟨["a1", "a2"], by decide, rfl, by decide, rfl⟩
      · exact ⟨["a2", "a1"], by decide, rfl, by decide, rfl⟩
    · intro n hn
      simp only [List.mem_cons, List.not_mem_nil, or_false] at hn
      rcases hn with rfl | rfl | rfl
      · exact ⟨["b1", "b3", "b2"], by decide, rfl, by decide, rfl⟩
      · exact ⟨["b2", "b1", "b3"], by decide, rfl, by decide, rfl⟩
      · exact ⟨["b3", "b2", "b1"], by decide, rfl, by decide, rfl⟩
  obtain ⟨hlen, hshape⟩ := C4_detect_cycles_counts.2 (fun l => l) multiCycleTasks
    ["a1", "a2"] ["b1", "b2", "b3"] (fun l => List.Perm.refl l) (by decide) htwo
  exact ⟨C4_detect_cycles_counts.1 (fun l => l) [("a", ⟨"a", []⟩)]
    (fun l => List.Perm.refl l) hacyc, hlen, hshape⟩

end BuildSys
